import Mathlib

/-!
# Verification of the procedural dungeon generator

A shallow embedding, in Lean 4, of `src/engine/dungeonBuilder.js` (the
`DungeonBuilder` class: sizing helpers, room placement, corridor BFS, doors,
walls, output assembly) and of the door-toggle handler
`tryToggleDoorAtHover` from `src/systems/inputSystem.js`, together with
theorems settling the frozen claims about this code.

Modelling conventions (translated from the source, not from the spec):

* JS numbers holding integer values are modelled as `Int`.  The `| 0`
  coercions in `computeRoomCount` are modelled exactly as 32-bit wrap
  (`toInt32`).  All other arithmetic the generator performs stays far below
  `2^53`, where JS doubles are exact on integers.
* The random source `rng : () -> float in [0,1)` is modelled as a stream
  `Nat → ℚ` of exact rationals together with an explicit index that each
  `randInt` call advances — exactly the order in which the JS code calls
  `rng()`.
* `Math.ceil(1.35 * Math.sqrt (delta))` in `deltaBonus` is modelled in
  IEEE-754 binary64 arithmetic, because the double literal `1.35` is
  `0x1.599999999999Ap+0 = 6079859496950170/2^52`, strictly greater than
  `27/20`, and the difference is observable (`delta = 32400` yields `244`,
  not `⌈1.35·180⌉ = 243`).  `Math.sqrt` is the correctly rounded
  (nearest-even) square root, computed exactly as a dyadic rational via an
  integer square root of the binade-scaled radicand; the product with the
  `1.35` double is rounded to nearest-even at its own binade; `Math.ceil`
  of the resulting dyadic rational is exact.  The exact-real reading
  `⌈(27/20)·√delta⌉` is kept as `deltaBonusExact` only to exhibit where the
  spec's formula diverges from the program.
* The tile key `"${col},${row},${z}"` is injective on integer triples, so a
  key is modelled as the triple `(col, row, z) : Int × Int × Int`.
* JS `Set` / `Map` are modelled as duplicate-free association lists in
  insertion order (`setAdd`, `setDelete`, `mapSet`, `mapFind`): only
  membership, lookup, insertion order and size are observable in the code
  under verification, and these agree with the JS semantics.
* The two `while` loops of `bfsPath` are modelled with an explicit fuel that
  dominates their iteration count (each BFS iteration dequeues one element
  and every enqueue is paired with a fresh `visited` insertion, so the loop
  runs at most `w*h + 1` times; the parent chain is strictly shorter than
  `visited`).  Adequacy of the fuel is proved, not assumed.
* `throw new Error(...)` is modelled by `Except.error`; `buildDungeon`
  returns `Except String DungeonResult`.
-/

/-! ## Basic data -/

/-- A tile key: the JS string key `"${col},${row},${z}"` is injective on
integer triples, modelled as the triple itself. -/
abbrev Key : Type := Int × Int × Int

/-- The world/grid reference `{w, h}`. -/
structure World where
  w : Int
  h : Int
deriving DecidableEq, Repr

/-- The six compass directions used by the generator
(`["E","W","NE","NW","SE","SW"]`). -/
inductive Dir : Type
  | E | W | NE | NW | SE | SW
deriving DecidableEq, Repr

/-- The fixed neighbor-expansion order `["E","W","NE","NW","SE","SW"]`. -/
def dirOrder : List Dir := [Dir.E, Dir.W, Dir.NE, Dir.NW, Dir.SE, Dir.SW]

/-- `keyOf(col, row, z)`. -/
def keyOf (col row z : Int) : Key := (col, row, z)

/-- `clamp(n, lo, hi) = Math.max(lo, Math.min(hi, n))`. -/
def clamp (n lo hi : Int) : Int := max lo (min hi n)

/-- `inBounds(col, row, world)`. -/
def inBounds (col row : Int) (world : World) : Bool :=
  col ≥ 0 && row ≥ 0 && col < world.w && row < world.h

/-- `Math.floor(a / b)` on integer operands with `b > 0`: floor division. -/
def floorDiv (a b : Int) : Int := Int.fdiv a b

/-- The random stream: the JS `rng` closure modelled as a stream of exact
rationals in `[0,1)`, consumed one value per call. -/
abbrev Rng : Type := Nat → ℚ

/-- The contract on the injected random source: every produced value lies in
`[0, 1)`. -/
def ValidRng (f : Rng) : Prop := ∀ n, 0 ≤ f n ∧ f n < 1

/-- `Math.floor(q * n)` for a rational `q` and an integer `n`, computed on
the numerator/denominator so that the kernel can evaluate it; proved equal
to `⌊q * n⌋` in `ratFloorMul_eq_floor` below. -/
def ratFloorMul (q : ℚ) (n : Int) : Int := (q.num * n) / (q.den : Int)

/-- `randInt(rng, lo, hi) = lo + Math.floor(rng() * (hi - lo + 1))`, returning
the drawn integer together with the advanced stream index. -/
def randInt (f : Rng) (i : Nat) (lo hi : Int) : Int × Nat :=
  (lo + ratFloorMul (f i) (hi - lo + 1), i + 1)

/-- `neighborOddR(col, row, dir)`: odd-r offset neighbors for pointy-top
hexes.  `row & 1` on a JS 32-bit integer agrees with `row % 2` under
`Int.emod` (both give `1` on negative odd rows). -/
def neighborOddR (col row : Int) (dir : Dir) : Int × Int :=
  let odd : Bool := row % 2 = 1
  match dir with
  | Dir.E => (col + 1, row)
  | Dir.W => (col - 1, row)
  | Dir.NE => if odd then (col + 1, row - 1) else (col, row - 1)
  | Dir.NW => if odd then (col, row - 1) else (col - 1, row - 1)
  | Dir.SE => if odd then (col + 1, row + 1) else (col, row + 1)
  | Dir.SW => if odd then (col, row + 1) else (col - 1, row + 1)

/-- `["E","W","NE","NW","SE","SW"][angleBucket]`: out-of-range indices give
`undefined` in JS, which makes `neighborOddR` hit its identity `default`
branch; modelled by `Option Dir`. -/
def dirFromIndex (n : Int) : Option Dir :=
  if n = 0 then some Dir.E
  else if n = 1 then some Dir.W
  else if n = 2 then some Dir.NE
  else if n = 3 then some Dir.NW
  else if n = 4 then some Dir.SE
  else if n = 5 then some Dir.SW
  else none

/-- One hop of the random walk: `neighborOddR` for a defined direction, the
JS `default` branch (`return {col, row}`) for `undefined`. -/
def walkStep (col row : Int) (od : Option Dir) : Int × Int :=
  match od with
  | some d => neighborOddR col row d
  | none => (col, row)

/-- Iterated walk `for (let s = 0; s < dist; s++) candidate = neighborOddR ...`. -/
def walkN (col row : Int) (od : Option Dir) : Nat → Int × Int
  | 0 => (col, row)
  | n + 1 =>
    let c := walkStep col row od
    walkN c.1 c.2 od n

/-! ## JS `Set` / `Map` as duplicate-free association lists -/

/-- JS `Set.add`: no-op when present, else append (insertion order). -/
def setAdd (s : List Key) (k : Key) : List Key :=
  if k ∈ s then s else s ++ [k]

/-- JS `Set.delete`. -/
def setDelete (s : List Key) (k : Key) : List Key :=
  s.filter (fun x => x ≠ k)

/-- JS `Map.get` (on a door map holding one `open : Bool` per key). -/
def mapFind (m : List (Key × Bool)) (k : Key) : Option Bool :=
  match m with
  | [] => none
  | e :: rest => if e.1 = k then some e.2 else mapFind rest k

/-- JS `Map.has`. -/
def mapHas (m : List (Key × Bool)) (k : Key) : Bool :=
  (mapFind m k).isSome

/-- JS `Map.set`: update in place when present, else append. -/
def mapSet (m : List (Key × Bool)) (k : Key) (b : Bool) : List (Key × Bool) :=
  if mapHas m k then m.map (fun e => if e.1 = k then (k, b) else e)
  else m ++ [(k, b)]

/-- Parent-pointer map of the BFS, `Map<tileKey, tileKey>`. -/
def pmapFind (m : List (Key × Key)) (k : Key) : Option Key :=
  match m with
  | [] => none
  | e :: rest => if e.1 = k then some e.2 else pmapFind rest k

/-- The inclusive integer range `lo..hi` (empty when `hi < lo`), as traversed
by the JS `for` loops. -/
def intRange (lo hi : Int) : List Int :=
  (List.range (hi + 1 - lo).toNat).map (fun n : Nat => lo + (n : Int))

/-! ## Sizing engine -/

/-- `baseRoomsFromDelta(delta)`. -/
def baseRoomsFromDelta (delta : Int) : Int :=
  if delta ≤ -4 then 3
  else if delta = -3 then 4
  else if delta = -2 then 4
  else if delta = -1 then 5
  else 5

/-- Search loop of `ceilSqrt`: the first `k` (counting up) with `k*k ≥ m`. -/
def ceilSqrtLoop (m : Nat) : Nat → Nat → Nat
  | 0, k => k
  | fuel + 1, k => if k * k ≥ m then k else ceilSqrtLoop m fuel (k + 1)

/-- `⌈√m⌉` for naturals: the least `k` with `k*k ≥ m` (the fuel `m + 1`
always suffices since `m*m ≥ m`). -/
def ceilSqrt (m : Nat) : Nat := ceilSqrtLoop m (m + 1) 0

/-- The exact-real reading of `Math.ceil(1.35 * Math.sqrt(delta))`: the least
`k : ℕ` with `k*k ≥ ⌈729*delta/400⌉`, equivalently `(20*k)^2 ≥ 729*delta`,
i.e. `⌈(27/20)·√delta⌉`.  This is what the spec's formula denotes if `1.35`
were the rational `27/20`; the program computes in binary64 doubles instead
(see `deltaBonus` below), and the two differ, e.g. at `delta = 32400`. -/
def deltaBonusExact (delta : Int) : Int :=
  ((ceilSqrt ((729 * delta.toNat + 399) / 400) : Nat) : Int)

/-! ### IEEE-754 binary64 model of `deltaBonus`

The JS source computes `Math.ceil(k * Math.sqrt(delta))` with the double
literal `k = 1.35`.  In binary64, `1.35 = 0x1.599999999999Ap+0`, i.e. exactly
`man135 / 2^52` with `man135 = 6079859496950170` — strictly greater than
`27/20` (see `man135_gt_27_div_20`).  For integer `1 ≤ delta < 2^32` (the
range reachable from the int32-coerced levels) every quantity involved is a
positive normal double, so the computation is:

1. `Math.sqrt(delta)` (IEEE: correctly rounded to nearest) lies in binade
   `[2^j, 2^(j+1))` where `4^j ≤ delta < 4^(j+1)`; scaling the radicand by
   `4^(52-j)` makes the doubles in that binade exactly the integer
   graduations `n / 2^(52-j)`, so the rounded square root is the nearest
   integer to `√(delta * 4^(52-j))` (never a tie: midpoints are rational
   while `√delta` is either an exactly representable integer or irrational),
   obtained from the integer square root `n0` by rounding up exactly when
   `n0*(n0+1) < N` (i.e. `√N > n0 + 1/2`).
2. the double product rounds the exact dyadic `man135 * n / 2^(104-j)` to
   53 significant bits at its own binade `[2^k, 2^(k+1))`, ties to even.
3. `Math.ceil` on the resulting dyadic rational `m2 / 2^(52-k)` is exact.
-/

/-- Bounded-fuel binary search for the integer square root: returns `lo` with
`lo^2 ≤ N < (lo+1)^2` once the bracket `[lo, hi)` has collapsed (structural
recursion, so kernel reduction works on 140-bit radicands). -/
def isqrtBin (N : Nat) : Nat → Nat → Nat → Nat
  | 0, lo, _ => lo
  | fuel + 1, lo, hi =>
    let mid := (lo + hi) / 2
    if mid = lo then lo
    else if mid * mid ≤ N then isqrtBin N fuel mid hi
    else isqrtBin N fuel lo mid

/-- Integer square root by bisection; fuel 200 covers any `N < 2^200`. -/
def isqrt (N : Nat) : Nat := isqrtBin N 200 0 (N + 1)

/-- Bounded search for `⌊log₄ delta⌋`: the first `j` with `delta < 4^(j+1)`. -/
def log4Loop (delta : Nat) : Nat → Nat → Nat
  | 0, j => j
  | fuel + 1, j => if delta < 4 ^ (j + 1) then j else log4Loop delta fuel (j + 1)

/-- `⌊log₄ delta⌋` for `1 ≤ delta < 4^32`. -/
def log4 (delta : Nat) : Nat := log4Loop delta 32 0

/-- The 53-bit significand of the double `1.35 = 0x1.599999999999Ap+0`:
`(1.35 : binary64) = man135 / 2^52`. -/
def man135 : Nat := 6079859496950170

/-- `Math.sqrt(delta)` for integer `1 ≤ delta < 2^32`, as the exact dyadic
pair `(n, t)` with value `n / 2^t`, `t = 52 - ⌊log₄ delta⌋`: the
nearest-integer rounding of `√(delta * 4^t)` (correct nearest-even double,
ties impossible). -/
def sqrtD (delta : Nat) : Nat × Nat :=
  let j := log4 delta
  let t := 52 - j
  let N := delta * 4 ^ t
  let n0 := isqrt N
  (if n0 * (n0 + 1) < N then n0 + 1 else n0, t)

/-- Round `X / 2^s` to the nearest integer, ties to even (the IEEE default
rounding applied to an exact dyadic intermediate). -/
def roundHalfEven (X : Nat) (s : Nat) : Nat :=
  let q := X / 2 ^ s
  let r := X % 2 ^ s
  let h := 2 ^ (s - 1)
  if h < r then q + 1
  else if r < h then q
  else if q % 2 = 0 then q else q + 1

/-- Bounded search for the binade of `X / 2^b ≥ 1`: least `k` with
`X < 2^(b+k+1)`. -/
def binadeLoop (X : Nat) (b : Nat) : Nat → Nat → Nat
  | 0, k => k
  | fuel + 1, k => if X < 2 ^ (b + k + 1) then k else binadeLoop X b fuel (k + 1)

/-- `Math.ceil(1.35 * Math.sqrt(delta))` in IEEE binary64, for
`1 ≤ delta < 2^32`: the correctly rounded double square root `n / 2^t`, the
exact product `X / 2^(52+t)` with the `1.35` significand, its nearest-even
rounding `m2 / 2^(52-k)` at binade `k`, and the exact ceiling of that dyadic
rational. -/
def deltaBonusNat (delta : Nat) : Nat :=
  let nt := sqrtD delta
  let X := man135 * nt.1
  let k := binadeLoop X (52 + nt.2) 64 0
  let m2 := roundHalfEven X (nt.2 + k)
  (m2 + 2 ^ (52 - k) - 1) / 2 ^ (52 - k)

/-- `deltaBonus(delta, 1.35) = Math.ceil(1.35 * Math.sqrt(delta))`, computed
in binary64 exactly as the program does (the call site guarantees
`delta ≥ 1`). -/
def deltaBonus (delta : Int) : Int := (deltaBonusNat delta.toNat : Int)

/-- JS `x | 0`: `ToInt32`, exact on the integer-valued doubles this code
produces. -/
def toInt32 (x : Int) : Int := (x + 2147483648) % 4294967296 - 2147483648

/-- `DungeonBuilder.computeRoomCount({playerLevel, monsterLevel,
difficultyLevel})`, with the source's `| 0` coercions modelled as 32-bit
wrap.  All intermediate sums stay below `2^53`, where JS doubles are exact. -/
def computeRoomCount (playerLevel monsterLevel difficultyLevel : Int) : Int :=
  let delta := toInt32 playerLevel - toInt32 monsterLevel
  let base := baseRoomsFromDelta delta
  let difficultyRooms := toInt32 difficultyLevel * 2
  let rooms := base + difficultyRooms
  let rooms := if delta ≥ 1 then rooms + deltaBonus delta else rooms
  toInt32 (max 3 rooms)

/-- The claim's formula shape `max(3, base(delta) + 2*difficulty + bonus)`
with delta on the unwrapped integers and no final truncation, the bonus being
the program's binary64 `deltaBonus`: the program's unwrapped room total (all
its double additions are exact below `2^53`). -/
def claimedRoomCount (playerLevel monsterLevel difficultyLevel : Int) : Int :=
  let delta := playerLevel - monsterLevel
  let bonus := if delta ≥ 1 then deltaBonus delta else 0
  max 3 (baseRoomsFromDelta delta + 2 * difficultyLevel + bonus)

/-- The room-count formula exactly as the claim words it, with the bonus read
in exact real arithmetic (`⌈1.35·√delta⌉` with `1.35 = 27/20`): used to
exhibit where the specified formula diverges from the program. -/
def claimedRoomCountExact (playerLevel monsterLevel difficultyLevel : Int) : Int :=
  let delta := playerLevel - monsterLevel
  let bonus := if delta ≥ 1 then deltaBonusExact delta else 0
  max 3 (baseRoomsFromDelta delta + 2 * difficultyLevel + bonus)

/-! ## Geometry: rectangles and rooms -/

/-- An axis-aligned room rectangle with inclusive bounds. -/
structure Rect where
  left : Int
  right : Int
  top : Int
  bottom : Int
deriving DecidableEq, Repr

/-- A room: its rectangle plus the ordered `doorKeys` list appended to by the
corridor router (the JS room object `{left,right,top,bottom,doorKeys}`). -/
structure Room where
  rect : Rect
  doorKeys : List Key
deriving DecidableEq, Repr

instance : Inhabited Room := ⟨⟨⟨0, 0, 0, 0⟩, []⟩⟩

/-- `rectsOverlap(a, b, pad)`. -/
def rectsOverlap (a b : Rect) (pad : Int) : Bool :=
  !(a.right + pad < b.left || a.left - pad > b.right ||
    a.bottom + pad < b.top || a.top - pad > b.bottom)

/-- `rectCenter(r)` (`Math.floor` of the midpoint coordinates). -/
def rectCenter (r : Rect) : Int × Int :=
  (floorDiv (r.left + r.right) 2, floorDiv (r.top + r.bottom) 2)

/-- The fixed placement margin `const margin = 2` of `buildDungeon`. -/
def dungeonMargin : Int := 2

/-- `tryPlaceRoomAtCenter(col, row, w, h)`: `null` when the centered rectangle
violates the margin, else the rectangle (the JS object also carries a fresh
empty `doorKeys`, attached by the caller here). -/
def tryPlaceRoomAtCenter (world : World) (col row w h : Int) : Option Rect :=
  let left := col - floorDiv w 2
  let right := left + w - 1
  let top := row - floorDiv h 2
  let bottom := top + h - 1
  if left < dungeonMargin || top < dungeonMargin ||
     right ≥ world.w - dungeonMargin || bottom ≥ world.h - dungeonMargin then
    none
  else
    some ⟨left, right, top, bottom⟩

/-! ## Corridor BFS (`bfsPath`) -/

/-- One dequeue's neighbor expansion: walks the direction list in the fixed
order, skipping out-of-bounds and already-visited neighbors, appending fresh
ones to the queue, the visited list and the parent map (in this order the JS
body performs `visited.add`, `parent.set`, `q.push`). -/
def bfsExpand (world : World) (z : Int) (cur : Int × Int) (ck : Key) :
    List Dir → List (Int × Int) → List Key → List (Key × Key) →
    List (Int × Int) × List Key × List (Key × Key)
  | [], q, visited, parent => (q, visited, parent)
  | d :: ds, q, visited, parent =>
    let n := neighborOddR cur.1 cur.2 d
    if inBounds n.1 n.2 world then
      let nk := keyOf n.1 n.2 z
      if nk ∈ visited then bfsExpand world z cur ck ds q visited parent
      else bfsExpand world z cur ck ds (q ++ [n]) (visited ++ [nk]) (parent ++ [(nk, ck)])
    else bfsExpand world z cur ck ds q visited parent

/-- The `while (q.length)` loop of `bfsPath`, with fuel dominating its
iteration count (each iteration dequeues once; every enqueue pairs with a
fresh `visited` insertion, so iterations never exceed `w*h + 1`). -/
def bfsLoop (world : World) (z : Int) (goalK : Key) :
    Nat → List (Int × Int) → List Key → List (Key × Key) →
    List Key × List (Key × Key)
  | 0, _, visited, parent => (visited, parent)
  | fuel + 1, q, visited, parent =>
    match q with
    | [] => (visited, parent)
    | cur :: rest =>
      let ck := keyOf cur.1 cur.2 z
      if ck = goalK then (visited, parent)
      else
        let s := bfsExpand world z cur ck dirOrder rest visited parent
        bfsLoop world z goalK fuel s.1 s.2.1 s.2.2

/-- The path-reconstruction `while (k && k !== startK)` loop.  The JS loop
pushes the parsed keys goal-first and reverses at the end; prepending to the
accumulator in visit order builds the same list.  A missing parent entry
(`k` becomes `undefined`, falsy) ends the loop after the push. -/
def reconstruct (parent : List (Key × Key)) (startK : Key) :
    Nat → Key → List (Int × Int) → List (Int × Int)
  | 0, _, acc => acc
  | fuel + 1, k, acc =>
    if k = startK then acc
    else
      let acc' := (k.1, k.2.1) :: acc
      match pmapFind parent k with
      | some pk => reconstruct parent startK fuel pk acc'
      | none => acc'

/-- `bfsPath(world, start, goal, blockedSet, z)`.  The `blockedSet` argument
is passed by the caller but — exactly as in the source — never consulted:
only out-of-bounds neighbors are rejected. -/
def bfsPath (world : World) (start goal : Int × Int)
    (blockedSet : List Key) (z : Int) : Option (List (Int × Int)) :=
  let _ := blockedSet
  let startK := keyOf start.1 start.2 z
  let goalK := keyOf goal.1 goal.2 z
  let fuel := world.w.toNat * world.h.toNat + 2
  let vp := bfsLoop world z goalK fuel [start] [startK] []
  let visited := vp.1
  let parent := vp.2
  if (pmapFind parent goalK).isNone && goalK ≠ startK then none
  else some (reconstruct parent startK (visited.length + 1) goalK [])

/-! ## Carving state and the `buildDungeon` helpers -/

/-- The working mutable collections of one `buildDungeon` invocation that the
corridor phase touches (`floor`, `blocked`, `doors`). -/
structure CarveState where
  floor : List Key
  blocked : List Key
  doors : List (Key × Bool)
deriving DecidableEq, Repr

/-- Interior part of `stampRoom`: strictly-inside tiles into `floor`. -/
def stampFloor (world : World) (z : Int) (r : Rect) (floor : List Key) : List Key :=
  (intRange (r.top + 1) (r.bottom - 1)).foldl
    (fun fl row =>
      (intRange (r.left + 1) (r.right - 1)).foldl
        (fun fl2 col =>
          if inBounds col row world then setAdd fl2 (keyOf col row z) else fl2) fl)
    floor

/-- Perimeter part of `stampRoom`: boundary tiles into `blocked`. -/
def stampBlocked (world : World) (z : Int) (r : Rect) (blocked : List Key) : List Key :=
  (intRange r.top r.bottom).foldl
    (fun bl row =>
      (intRange r.left r.right).foldl
        (fun bl2 col =>
          if inBounds col row world then
            if row = r.top || row = r.bottom || col = r.left || col = r.right then
              setAdd bl2 (keyOf col row z)
            else bl2
          else bl2) bl)
    blocked

/-- `addDoorTile(col, row, open)`: registers the door and reflects its state
into `blocked` (`opn` renders the JS parameter `open`, a Lean keyword). -/
def addDoorTile (z : Int) (st : CarveState) (col row : Int) (opn : Bool) :
    Key × CarveState :=
  let k := keyOf col row z
  let doors := mapSet st.doors k opn
  let blocked := if opn then setDelete st.blocked k else setAdd st.blocked k
  (k, { st with doors := doors, blocked := blocked })

/-- `carveTile(col, row)`: `floor.add(k); blocked.delete(k)`. -/
def carveTile (z : Int) (st : CarveState) (col row : Int) : CarveState :=
  let k := keyOf col row z
  { st with floor := setAdd st.floor k, blocked := setDelete st.blocked k }

/-- `carveCorridor(path)` (corridor width 1). -/
def carveCorridor (z : Int) (st : CarveState) (path : List (Int × Int)) : CarveState :=
  path.foldl (fun s p => carveTile z s p.1 p.2) st

/-- `pickPerimeterDoorToward(roomRect, targetCol, targetRow)`. -/
def pickPerimeterDoorToward (r : Rect) (targetCol targetRow : Int) : Int × Int :=
  let c := rectCenter r
  let dc := targetCol - c.1
  let dr := targetRow - c.2
  if |dc| ≥ |dr| then
    if dc ≥ 0 then (r.right, clamp targetRow (r.top + 1) (r.bottom - 1))
    else (r.left, clamp targetRow (r.top + 1) (r.bottom - 1))
  else
    if dr ≥ 0 then (clamp targetCol (r.left + 1) (r.right - 1), r.bottom)
    else (clamp targetCol (r.left + 1) (r.right - 1), r.top)

/-- `stepOut(roomRect, doorPos)`: one tile outward from the door's wall. -/
def stepOut (r : Rect) (doorPos : Int × Int) : Int × Int :=
  if doorPos.2 = r.top then (doorPos.1, doorPos.2 - 1)
  else if doorPos.2 = r.bottom then (doorPos.1, doorPos.2 + 1)
  else if doorPos.1 = r.left then (doorPos.1 - 1, doorPos.2)
  else if doorPos.1 = r.right then (doorPos.1 + 1, doorPos.2)
  else doorPos

/-- One iteration of the corridor loop (`rooms[i-1]` to `rooms[i]`): door
selection, door registration, step-out carving, BFS, corridor carving.
Returns the two rooms with their appended `doorKeys` and the new state. -/
def connectPair (world : World) (z : Int) (a b : Room) (st : CarveState) :
    Room × Room × CarveState :=
  let ac := rectCenter a.rect
  let bc := rectCenter b.rect
  let aDoorPos := pickPerimeterDoorToward a.rect bc.1 bc.2
  let bDoorPos := pickPerimeterDoorToward b.rect ac.1 ac.2
  let t1 := addDoorTile z st aDoorPos.1 aDoorPos.2 false
  let t2 := addDoorTile z t1.2 bDoorPos.1 bDoorPos.2 false
  let a' : Room := { a with doorKeys := a.doorKeys ++ [t1.1] }
  let b' : Room := { b with doorKeys := b.doorKeys ++ [t2.1] }
  let start := stepOut a.rect aDoorPos
  let goal := stepOut b.rect bDoorPos
  let st1 := if inBounds start.1 start.2 world then carveTile z t2.2 start.1 start.2 else t2.2
  let st2 := if inBounds goal.1 goal.2 world then carveTile z st1 goal.1 goal.2 else st1
  let path := bfsPath world start goal st2.blocked z
  let st3 := match path with
    | some p => carveCorridor z st2 p
    | none => st2
  (a', b', st3)

/-- The corridor loop over consecutive room pairs, `prev` being `rooms[i-1]`
with the door keys it has accumulated so far (the JS loop mutates the shared
room objects in place; here the updated rooms are rebuilt into the list). -/
def connectLoop (world : World) (z : Int) (prev : Room) :
    List Room → CarveState → List Room × CarveState
  | [], st => ([prev], st)
  | b :: rest, st =>
    let t := connectPair world z prev b st
    let res := connectLoop world z t.2.1 rest t.2.2
    (t.1 :: res.1, res.2)

/-- `--- 2) Connect rooms with corridors + doors ---` over the whole list. -/
def connectRooms (world : World) (z : Int) :
    List Room → CarveState → List Room × CarveState
  | [], st => ([], st)
  | a :: rest, st => connectLoop world z a rest st

/-- A render wall segment `{from: {col,row,z}, to: {col,row,z}}`. -/
structure Wall where
  segFrom : Key
  segTo : Key
deriving DecidableEq, Repr

/-- `rebuildWallSegmentsForRoom(roomRect, doorKeys)`: the four perimeter
edges, skipping unit segments whose either endpoint is a door tile or out of
bounds; emitted in the source's order (top, bottom, left, right). -/
def wallSegmentsForRoom (world : World) (z : Int) (r : Rect) (doorKeys : List Key) :
    List Wall :=
  let topSegs := (intRange r.left (r.right - 1)).filterMap (fun col =>
    let a := keyOf col r.top z
    let b := keyOf (col + 1) r.top z
    if a ∈ doorKeys || b ∈ doorKeys then none
    else if !(inBounds col r.top world) || !(inBounds (col + 1) r.top world) then none
    else some ⟨a, b⟩)
  let bottomSegs := (intRange r.left (r.right - 1)).filterMap (fun col =>
    let a := keyOf col r.bottom z
    let b := keyOf (col + 1) r.bottom z
    if a ∈ doorKeys || b ∈ doorKeys then none
    else if !(inBounds col r.bottom world) || !(inBounds (col + 1) r.bottom world) then none
    else some ⟨a, b⟩)
  let leftSegs := (intRange r.top (r.bottom - 1)).filterMap (fun row =>
    let a := keyOf r.left row z
    let b := keyOf r.left (row + 1) z
    if a ∈ doorKeys || b ∈ doorKeys then none
    else if !(inBounds r.left row world) || !(inBounds r.left (row + 1) world) then none
    else some ⟨a, b⟩)
  let rightSegs := (intRange r.top (r.bottom - 1)).filterMap (fun row =>
    let a := keyOf r.right row z
    let b := keyOf r.right (row + 1) z
    if a ∈ doorKeys || b ∈ doorKeys then none
    else if !(inBounds r.right row world) || !(inBounds r.right (row + 1) world) then none
    else some ⟨a, b⟩)
  topSegs ++ bottomSegs ++ leftSegs ++ rightSegs

/-! ## Room placement and the main builder -/

/-- The sizing/placement knobs of `buildDungeon` relevant to one placement
attempt. -/
structure PlaceKnobs where
  roomMinW : Int
  roomMaxW : Int
  roomMinH : Int
  roomMaxH : Int
  roomPad : Int
deriving DecidableEq, Repr

/-- One placement attempt: sample sizes, walk a random direction/distance
from the previous room's center, reject when out of margins or overlapping.
Consumes four rng values (`rw`, `rh`, `dist`, `angleBucket`, in source
order); returns the accepted rectangle (or `none`) with the advanced stream
index. -/
def placeAttemptOnce (world : World) (f : Rng) (kn : PlaceKnobs) (prev : Room)
    (rooms : List Room) (i : Nat) : Option Rect × Nat :=
  let s1 := randInt f i kn.roomMinW kn.roomMaxW
  let s2 := randInt f s1.2 kn.roomMinH kn.roomMaxH
  let prevC := rectCenter prev.rect
  let s3 := randInt f s2.2 6 14
  let s4 := randInt f s3.2 0 5
  let dir := dirFromIndex s4.1
  let cand := walkN prevC.1 prevC.2 dir s3.1.toNat
  match tryPlaceRoomAtCenter world cand.1 cand.2 s1.1 s2.1 with
  | none => (none, s4.2)
  | some rect =>
    if rooms.any (fun ex => rectsOverlap rect ex.rect kn.roomPad) then (none, s4.2)
    else (some rect, s4.2)

/-- The `for (let a = 0; a < maxRoomAttempts; a++)` retry loop for one room:
the first accepted attempt wins. -/
def attemptPlace (world : World) (f : Rng) (kn : PlaceKnobs) (prev : Room)
    (rooms : List Room) : Nat → Nat → Option Rect × Nat
  | 0, i => (none, i)
  | a + 1, i =>
    match placeAttemptOnce world f kn prev rooms i with
    | (none, i2) => attemptPlace world f kn prev rooms a i2
    | (some rect, i2) => (some rect, i2)

/-- The `for (let i = 1; i < roomCount; i++)` placement loop: on a failed
budget the loop `break`s, keeping the rooms placed so far. -/
def placeLoop (world : World) (f : Rng) (kn : PlaceKnobs) (maxAttempts : Nat) :
    Nat → Nat → Room → List Room → List Room × Nat
  | 0, i, _, rooms => (rooms, i)
  | n + 1, i, prev, rooms =>
    let r := attemptPlace world f kn prev rooms maxAttempts i
    match r.1 with
    | none => (rooms, r.2)
    | some rect =>
      let room : Room := { rect := rect, doorKeys := [] }
      placeLoop world f kn maxAttempts n r.2 room (rooms ++ [room])

/-- The `buildDungeon` parameter object with its documented defaults
(`corridorWidth` is accepted and, as in the source, never read). -/
structure Params where
  playerLevel : Int := 1
  monsterLevel : Int := 1
  difficultyLevel : Int := 1
  z : Int := 0
  roomMinW : Int := 7
  roomMaxW : Int := 11
  roomMinH : Int := 5
  roomMaxH : Int := 9
  roomPad : Int := 2
  maxRoomAttempts : Int := 80
  corridorWidth : Int := 1
deriving DecidableEq, Repr

/-- The dungeon result `{rooms, spawn, floor, blocked, doors, walls}` (the
constant `meta` strings are omitted). -/
structure DungeonResult where
  rooms : List Room
  spawn : Key
  floor : List Key
  blocked : List Key
  doors : List (Key × Bool)
  walls : List Wall
deriving DecidableEq, Repr

instance : Inhabited DungeonResult := ⟨⟨[], (0, 0, 0), [], [], [], []⟩⟩

/-- The message of the only `throw` in `buildDungeon`. -/
def failMsg : String := "Failed to place initial room. Increase estimated world size."

/-- The `PlaceKnobs` slice of a parameter object. -/
def knobsOf (p : Params) : PlaceKnobs :=
  { roomMinW := p.roomMinW, roomMaxW := p.roomMaxW,
    roomMinH := p.roomMinH, roomMaxH := p.roomMaxH, roomPad := p.roomPad }

/-- The centered placement attempt for room 0 (`rw` and `rh` are the first
two rng draws). -/
def firstRoomRect (world : World) (f : Rng) (p : Params) : Option Rect :=
  tryPlaceRoomAtCenter world (floorDiv (world.w - 1) 2) (floorDiv (world.h - 1) 2)
    (randInt f 0 p.roomMinW p.roomMaxW).1
    (randInt f (randInt f 0 p.roomMinW p.roomMaxW).2 p.roomMinH p.roomMaxH).1

/-- The room list after the whole placement loop, given the placed room 0. -/
def placedRooms (world : World) (f : Rng) (p : Params) (rect0 : Rect) : List Room :=
  (placeLoop world f (knobsOf p) p.maxRoomAttempts.toNat
    (computeRoomCount p.playerLevel p.monsterLevel p.difficultyLevel - 1).toNat
    (randInt f (randInt f 0 p.roomMinW p.roomMaxW).2 p.roomMinH p.roomMaxH).2
    { rect := rect0, doorKeys := [] } [{ rect := rect0, doorKeys := [] }]).1

/-- Phases 2–4 of `buildDungeon` on the placed rooms: stamping, corridors
and doors, wall segments, spawn, assembly.  Stamping of accepted rooms is
performed room-by-room in the source and after the placement loop here; the
two orders produce identical `floor`/`blocked` contents because placement
decisions never read those sets. -/
def assembleResult (world : World) (z : Int) (rooms : List Room) : DungeonResult :=
  let floor0 := rooms.foldl (fun fl r => stampFloor world z r.rect fl) []
  let blocked0 := rooms.foldl (fun bl r => stampBlocked world z r.rect bl) []
  let cr := connectRooms world z rooms { floor := floor0, blocked := blocked0, doors := [] }
  let rooms' := cr.1
  let st := cr.2
  let walls := rooms'.foldl
    (fun ws r => ws ++ wallSegmentsForRoom world z r.rect r.doorKeys) []
  let r0res := rooms'.headI
  { rooms := rooms',
    spawn := (clamp (r0res.rect.left + 2) 0 (world.w - 1),
              clamp (r0res.rect.top + 2) 0 (world.h - 1), z),
    floor := st.floor, blocked := st.blocked, doors := st.doors, walls := walls }

/-- `buildDungeon`: the full generator pipeline.  The only `throw` of the
source is the failed centered placement of room 0. -/
def buildDungeon (world : World) (f : Rng) (p : Params) : Except String DungeonResult :=
  match firstRoomRect world f p with
  | none => Except.error failMsg
  | some rect0 => Except.ok (assembleResult world p.z (placedRooms world f p rect0))

/-- The result of `buildDefault`: the dungeon plus the convenience `door`
pointer. -/
structure BuildDefaultResult where
  dungeon : DungeonResult
  door : Key
deriving DecidableEq, Repr

instance : Inhabited BuildDefaultResult := ⟨⟨default, (0, 0, 0)⟩⟩

/-- The parameter object of `buildDefault`'s internal `buildDungeon` call:
`playerLevel=1, monsterLevel=1, difficultyLevel=0`, a fixed 9×7 room size,
`maxRoomAttempts=1`, remaining knobs at their defaults. -/
def defaultParams (z : Int) : Params :=
  { playerLevel := 1, monsterLevel := 1, difficultyLevel := 0, z := z,
    roomMinW := 9, roomMaxW := 9, roomMinH := 7, roomMaxH := 7,
    maxRoomAttempts := 1 }

/-- `buildDefault({z})`: the single-room convenience wrapper.  Runs the main
pipeline with `defaultParams`; then guarantees a door at the center of room
0's bottom wall, rebuilding fresh collections when it has to add one (the
frozen result is never mutated). -/
def buildDefault (world : World) (f : Rng) (z : Int) : Except String BuildDefaultResult :=
  match buildDungeon world f (defaultParams z) with
  | Except.error e => Except.error e
  | Except.ok d =>
    let r0 := d.rooms.headI
    let doorCol := floorDiv (r0.rect.left + r0.rect.right) 2
    let doorRow := r0.rect.bottom
    let k := keyOf doorCol doorRow z
    if mapHas d.doors k then
      Except.ok { dungeon := d, door := k }
    else
      let blocked := setAdd d.blocked k
      let doors := mapSet d.doors k false
      let rooms := match d.rooms with
        | [] => []
        | r :: rest => ({ r with doorKeys := r.doorKeys ++ [k] } : Room) :: rest
      Except.ok { dungeon := { rooms := rooms, spawn := d.spawn, floor := d.floor,
                               blocked := blocked, doors := doors, walls := d.walls },
                  door := k }

/-! ## The door-toggle handler (`src/systems/inputSystem.js`) -/

/-- The slice of the game state `tryToggleDoorAtHover` reads and writes: the
dungeon (in the source, the very object `buildDungeon` returned) and the
hover tile (`null` columns modelled by `none`; `h.z ?? 0` resolved into the
key). -/
structure GameState where
  dungeon : DungeonResult
  hover : Option Key
deriving DecidableEq, Repr

/-- `tryToggleDoorAtHover(game)`: flips the hovered door's `open` flag and
reflects passability into the blocked set, writing through to the dungeon
held by the game — in the JS source these writes land in the `doors` map
and `blocked` set of the frozen `buildDungeon` result itself (`Object.freeze`
is shallow and does not seal `Set`/`Map` contents). -/
def tryToggleDoorAtHover (game : GameState) : Bool × GameState :=
  match game.hover with
  | none => (false, game)
  | some h =>
    let k := h
    match mapFind game.dungeon.doors k with
    | none => (false, game)
    | some b =>
      let opn := !b
      let doors := mapSet game.dungeon.doors k opn
      let blocked :=
        if opn then setDelete game.dungeon.blocked k else setAdd game.dungeon.blocked k
      (true, { game with
               dungeon := { game.dungeon with doors := doors, blocked := blocked } })

/-! ## Concrete instances used by counterexamples and witnesses -/

/-- A concrete rng stream: the listed values then zeros. -/
def rngOfList (l : List ℚ) : Rng := fun n => l.getD n 0

/-- The all-zero rng stream. -/
def zeroRng : Rng := rngOfList []

/-- 23×9 world of the door-carve run. -/
def worldA : World := { w := 23, h := 9 }

/-- The rng draws of the door-carve run: sizes all at the minimum, room 1
placed 7 steps east of room 0, room 2 placed 14 steps west of room 1 (all
values exactly representable as binary doubles). -/
def rngA : Rng := rngOfList [0, 0, 0, 0, mkRat 1 8, 0, 0, 0, mkRat 29 32, mkRat 1 4]

/-- Parameters of the door-carve run: `delta = -4` (so three rooms), fixed
5×5 rooms. -/
def paramsA : Params :=
  { playerLevel := 1, monsterLevel := 5, difficultyLevel := 0,
    roomMinW := 5, roomMaxW := 5, roomMinH := 5, roomMaxH := 5 }

/-- The dungeon of the door-carve run (rooms at columns 9–13, 16–20 and 2–6,
all centered on row 4; the room-1→room-2 corridor runs straight west through
room 0 and its door tile `(13,4)`). -/
def resA : DungeonResult := ((buildDungeon worldA rngA paramsA).toOption).getD default

/-- 40×13 world of the `buildDefault` two-room run. -/
def worldB : World := { w := 40, h := 13 }

/-- Rng draws of the `buildDefault` two-room run: room 1 is placed 14 steps
east of room 0 on the single allowed attempt, room 2's single attempt walks
out of the margins. -/
def rngB : Rng := rngOfList [0, 0, 0, 0, mkRat 29 32, 0, 0, 0, mkRat 29 32, 0]

/-- The `buildDefault` two-room run. -/
def resB : BuildDefaultResult := ((buildDefault worldB rngB 0).toOption).getD default

/-- 15×15 world on which `buildDefault` with the zero rng keeps only room 0
(the single placement attempt for room 1 lands out of the margins). -/
def worldC : World := { w := 15, h := 15 }

/-- The one-room `buildDefault` run. -/
def resC : BuildDefaultResult := ((buildDefault worldC zeroRng 0).toOption).getD default

/-- Parameters of the degenerate-size run: width and height knobs forced to
`0`, making every sampled rectangle have `right = left - 1`. -/
def paramsD : Params :=
  { playerLevel := 1, monsterLevel := 5, difficultyLevel := 0,
    roomMinW := 0, roomMaxW := 0, roomMinH := 0, roomMaxH := 0 }

/-- The degenerate-size run on the 23×9 world with the zero rng. -/
def resD : DungeonResult := ((buildDungeon worldA zeroRng paramsD).toOption).getD default

/-- Cheap all-failure run for witnesses: on the 15×15 world with 9×7 rooms
and `delta = -4`, every placement attempt after room 0 walks out of the
margins, so exactly room 0 is kept. -/
def paramsE : Params :=
  { playerLevel := 1, monsterLevel := 5, difficultyLevel := 0,
    roomMinW := 9, roomMaxW := 9, roomMinH := 7, roomMaxH := 7 }

/-- The one-room `buildDungeon` run used by witnesses. -/
def resE : DungeonResult := ((buildDungeon worldC zeroRng paramsE).toOption).getD default

/-! ## Small arithmetic and container lemmas -/

theorem ratFloorMul_eq_floor (q : ℚ) (n : Int) : ratFloorMul q n = ⌊q * (n : ℚ)⌋ := by
  have h : q * (n : ℚ) = ((q.num * n : ℤ) : ℚ) / ((q.den : ℕ) : ℚ) := by
    conv_lhs => rw [← Rat.num_div_den q]
    push_cast
    ring
  rw [ratFloorMul, h, Rat.floor_intCast_div_natCast]

/-- With a valid rng and `lo ≤ hi`, `randInt` draws inside `[lo, hi]`. -/
theorem randInt_bounds (f : Rng) (hf : ValidRng f) (i : Nat) (lo hi : Int)
    (hlohi : lo ≤ hi) :
    lo ≤ (randInt f i lo hi).1 ∧ (randInt f i lo hi).1 ≤ hi := by
  have h0 := (hf i).1
  have h1 := (hf i).2
  have hn : (0 : ℚ) < ((hi - lo + 1 : Int) : ℚ) := by
    have : (0 : Int) < hi - lo + 1 := by omega
    exact_mod_cast this
  constructor
  · have hfl : (0 : ℤ) ≤ ⌊f i * ((hi - lo + 1 : Int) : ℚ)⌋ :=
      Int.floor_nonneg.mpr (mul_nonneg h0 (le_of_lt hn))
    simp only [randInt, ratFloorMul_eq_floor]
    omega
  · have hlt : f i * ((hi - lo + 1 : Int) : ℚ) < ((hi - lo + 1 : Int) : ℚ) := by
      calc f i * ((hi - lo + 1 : Int) : ℚ) < 1 * ((hi - lo + 1 : Int) : ℚ) := by
            exact mul_lt_mul_of_pos_right h1 hn
        _ = ((hi - lo + 1 : Int) : ℚ) := one_mul _
    have hfl : ⌊f i * ((hi - lo + 1 : Int) : ℚ)⌋ < hi - lo + 1 := by
      rw [Int.floor_lt]
      exact_mod_cast hlt
    simp only [randInt, ratFloorMul_eq_floor]
    omega

/-- A degenerate draw: `randInt(rng, c, c) = c` for any valid rng. -/
theorem randInt_const (f : Rng) (hf : ValidRng f) (i : Nat) (c : Int) :
    (randInt f i c c).1 = c := by
  have h := randInt_bounds f hf i c c le_rfl
  omega

/-- `x | 0` is the identity on the int32 range. -/
theorem toInt32_eq_self (x : Int) (h1 : -2147483648 ≤ x) (h2 : x < 2147483648) :
    toInt32 x = x := by
  have : (x + 2147483648) % 4294967296 = x + 2147483648 :=
    Int.emod_eq_of_lt (by omega) (by omega)
  simp only [toInt32]
  omega

theorem setAdd_mem (s : List Key) (k x : Key) :
    x ∈ setAdd s k ↔ x ∈ s ∨ x = k := by
  simp only [setAdd]
  split
  · next h => constructor
              · exact fun hx => Or.inl hx
              · rintro (hx | rfl)
                · exact hx
                · exact h
  · simp

theorem mem_setAdd_self (s : List Key) (k : Key) : k ∈ setAdd s k := by
  rw [setAdd_mem]
  exact Or.inr rfl

theorem setAdd_mem_of_mem (s : List Key) (k x : Key) (h : x ∈ s) : x ∈ setAdd s k := by
  rw [setAdd_mem]
  exact Or.inl h

theorem setDelete_mem (s : List Key) (k x : Key) :
    x ∈ setDelete s k ↔ x ∈ s ∧ x ≠ k := by
  simp only [setDelete, List.mem_filter, ne_eq, decide_not, Bool.not_eq_eq_eq_not,
    Bool.not_true, decide_eq_false_iff_not]

theorem mapFind_mapSet_self (m : List (Key × Bool)) (k : Key) (b : Bool) :
    mapFind (mapSet m k b) k = some b := by
  by_cases h : mapHas m k
  · simp only [mapSet, h, if_true]
    induction m with
    | nil => simp [mapHas, mapFind] at h
    | cons e rest ih =>
      by_cases he : e.1 = k
      · simp [mapFind, he]
      · simp only [List.map_cons, if_neg he, mapFind, he, if_false]
        simp only [mapHas, mapFind, he, if_false] at h
        exact ih h
  · simp only [mapSet, h, if_false]
    induction m with
    | nil => simp [mapFind]
    | cons e rest ih =>
      by_cases he : e.1 = k
      · exfalso
        apply h
        simp [mapHas, mapFind, he]
      · simp only [List.cons_append, mapFind, he, if_false]
        apply ih
        simp only [mapHas, mapFind, he, if_false] at h
        exact h

/-! ## Correctness of the binary64 `deltaBonus` building blocks -/

/-- The double `1.35` strictly exceeds the rational `27/20`: this is why the
exact-real reading of the bonus diverges from the program. -/
theorem man135_gt_27_div_20 : 27 * 2 ^ 52 < 20 * man135 := by decide

/-- The bisection maintains `lo^2 ≤ N < hi^2` and, with fuel covering the
bracket width, lands on the integer square root. -/
theorem isqrtBin_correct (N : Nat) :
    ∀ (fuel lo hi : Nat), lo < hi → lo * lo ≤ N → N < hi * hi → hi ≤ lo + 2 ^ fuel →
    isqrtBin N fuel lo hi * isqrtBin N fuel lo hi ≤ N ∧
    N < (isqrtBin N fuel lo hi + 1) * (isqrtBin N fuel lo hi + 1) := by
  intro fuel
  induction fuel with
  | zero =>
    intro lo hi hlt hlo hhi hw
    have h0 : (2 : Nat) ^ 0 = 1 := pow_zero 2
    have he : hi = lo + 1 := by omega
    subst he
    simpa [isqrtBin] using ⟨hlo, hhi⟩
  | succ fuel ih =>
    intro lo hi hlt hlo hhi hw
    have h2 : (2 : Nat) ^ (fuel + 1) = 2 * 2 ^ fuel := by ring
    by_cases hmid : (lo + hi) / 2 = lo
    · have he : hi = lo + 1 := by omega
      subst he
      simpa [isqrtBin, hmid] using ⟨hlo, hhi⟩
    · by_cases hle : (lo + hi) / 2 * ((lo + hi) / 2) ≤ N
      · have := ih ((lo + hi) / 2) hi (by omega) hle hhi (by omega)
        simpa [isqrtBin, hmid, hle] using this
      · have := ih lo ((lo + hi) / 2) (by omega) hlo (by omega) (by omega)
        simpa [isqrtBin, hmid, hle] using this

/-- `isqrt` really is the integer square root (for any `N < 2^200`). -/
theorem isqrt_correct (N : Nat) (h : N < 2 ^ 200) :
    isqrt N * isqrt N ≤ N ∧ N < (isqrt N + 1) * (isqrt N + 1) :=
  isqrtBin_correct N 200 0 (N + 1) (by omega) (by simp)
    (by calc N < N + 1 := by omega
          _ ≤ (N + 1) * (N + 1) := Nat.le_mul_of_pos_left _ (by omega))
    (by omega)

/-- The bounded search finds the base-4 binade. -/
theorem log4Loop_correct (delta : Nat) :
    ∀ (fuel j : Nat), 4 ^ j ≤ delta → delta < 4 ^ (j + fuel) →
    4 ^ log4Loop delta fuel j ≤ delta ∧ delta < 4 ^ (log4Loop delta fuel j + 1) := by
  intro fuel
  induction fuel with
  | zero =>
    intro j h1 h2
    rw [Nat.add_zero] at h2
    omega
  | succ fuel ih =>
    intro j h1 h2
    by_cases hc : delta < 4 ^ (j + 1)
    · have hr : log4Loop delta (fuel + 1) j = j := by simp [log4Loop, hc]
      rw [hr]
      exact ⟨h1, hc⟩
    · have he : j + 1 + fuel = j + (fuel + 1) := by omega
      have hrec := ih (j + 1) (by omega) (by rw [he]; exact h2)
      have hr : log4Loop delta (fuel + 1) j = log4Loop delta fuel (j + 1) := by
        simp [log4Loop, hc]
      rw [hr]
      exact hrec

/-- `log4` is `⌊log₄⌋` on the whole range reachable from int32 deltas. -/
theorem log4_correct (delta : Nat) (h1 : 1 ≤ delta) (h2 : delta < 4 ^ 32) :
    4 ^ log4 delta ≤ delta ∧ delta < 4 ^ (log4 delta + 1) :=
  log4Loop_correct delta 32 0 (by simpa using h1) (by simpa using h2)

/-- The bounded search finds the base-2 binade of `X / 2^b`. -/
theorem binadeLoop_correct (X b : Nat) :
    ∀ (fuel k : Nat), 2 ^ (b + k) ≤ X → X < 2 ^ (b + k + fuel) →
    2 ^ (b + binadeLoop X b fuel k) ≤ X ∧ X < 2 ^ (b + binadeLoop X b fuel k + 1) := by
  intro fuel
  induction fuel with
  | zero =>
    intro k h1 h2
    rw [Nat.add_zero] at h2
    omega
  | succ fuel ih =>
    intro k h1 h2
    by_cases hc : X < 2 ^ (b + k + 1)
    · have hr : binadeLoop X b (fuel + 1) k = k := by simp [binadeLoop, hc]
      rw [hr]
      exact ⟨h1, hc⟩
    · have e1 : b + (k + 1) = b + k + 1 := by omega
      have e2 : b + (k + 1) + fuel = b + k + (fuel + 1) := by omega
      have hrec := ih (k + 1) (by rw [e1]; omega) (by rw [e2]; exact h2)
      have hr : binadeLoop X b (fuel + 1) k = binadeLoop X b fuel (k + 1) := by
        simp [binadeLoop, hc]
      rw [hr]
      exact hrec

/-- Rounding step of `sqrtD`: whichever way the `n0*(n0+1) < N` test goes,
the chosen `n` is a normal significand and `(n - 1/2)² < N < (n + 1/2)²`
(stated multiplied by 4), i.e. `n` is the integer nearest to `√N`. -/
theorem sqrtD_spec_aux (N n0 : Nat) (hs1 : n0 * n0 ≤ N) (hs2 : N < (n0 + 1) * (n0 + 1))
    (hNlo : 4 ^ 52 ≤ N) (hNhi : N < 4 ^ 53) :
    2 ^ 52 ≤ (if n0 * (n0 + 1) < N then n0 + 1 else n0) ∧
    (if n0 * (n0 + 1) < N then n0 + 1 else n0) ≤ 2 ^ 53 ∧
    (2 * (if n0 * (n0 + 1) < N then n0 + 1 else n0) - 1) ^ 2 < 4 * N ∧
    4 * N < (2 * (if n0 * (n0 + 1) < N then n0 + 1 else n0) + 1) ^ 2 := by
  have h4lo : (4 : Nat) ^ 52 = 2 ^ 52 * 2 ^ 52 := by norm_num
  have h4hi : (4 : Nat) ^ 53 = 2 ^ 53 * 2 ^ 53 := by norm_num
  have hlo : 2 ^ 52 ≤ n0 := by
    by_contra hcon
    push_neg at hcon
    have : (n0 + 1) * (n0 + 1) ≤ 2 ^ 52 * 2 ^ 52 := Nat.mul_le_mul (by omega) (by omega)
    omega
  have hhi : n0 < 2 ^ 53 := by
    by_contra hcon
    push_neg at hcon
    have : 2 ^ 53 * 2 ^ 53 ≤ n0 * n0 := Nat.mul_le_mul hcon hcon
    omega
  have esq1 : (n0 + 1) * (n0 + 1) = n0 * n0 + 2 * n0 + 1 := by ring
  have esq2 : n0 * (n0 + 1) = n0 * n0 + n0 := by ring
  by_cases hcase : n0 * (n0 + 1) < N
  · simp only [hcase, if_true]
    have e1 : 2 * (n0 + 1) - 1 = 2 * n0 + 1 := by omega
    have e2 : (2 * n0 + 1) ^ 2 = 4 * (n0 * n0) + 4 * n0 + 1 := by ring
    have e3 : (2 * (n0 + 1) + 1) ^ 2 = 4 * (n0 * n0) + 12 * n0 + 9 := by ring
    rw [e1, e2, e3]
    refine ⟨by omega, by omega, by omega, by omega⟩
  · simp only [hcase, if_false]
    obtain ⟨n1, rfl⟩ : ∃ n1, n0 = n1 + 1 := ⟨n0 - 1, by omega⟩
    have e1 : 2 * (n1 + 1) - 1 = 2 * n1 + 1 := by omega
    have e2 : (2 * n1 + 1) ^ 2 = 4 * (n1 * n1) + 4 * n1 + 1 := by ring
    have e3 : (2 * (n1 + 1) + 1) ^ 2 = 4 * (n1 * n1) + 12 * n1 + 9 := by ring
    have e4 : (n1 + 1) * (n1 + 1) = n1 * n1 + 2 * n1 + 1 := by ring
    have e5 : (n1 + 1) * (n1 + 1 + 1) = n1 * n1 + 3 * n1 + 2 := by ring
    rw [e1, e2, e3]
    rw [e4] at hs1
    rw [e5] at hcase
    refine ⟨hlo, by omega, by omega, by omega⟩

/-- `sqrtD delta = (n, t)` has `t = 52 - ⌊log₄ delta⌋`, a normal significand
`2^52 ≤ n ≤ 2^53`, and `(n - 1/2)² < delta·4^t < (n + 1/2)²`: `n/2^t` is the
graduation nearest to `√delta` in its binade, hence (ties being impossible)
the IEEE-correctly-rounded `Math.sqrt(delta)`. -/
theorem sqrtD_spec (delta : Nat) (h1 : 1 ≤ delta) (h2 : delta < 4 ^ 16) :
    (sqrtD delta).2 = 52 - log4 delta ∧
    2 ^ 52 ≤ (sqrtD delta).1 ∧ (sqrtD delta).1 ≤ 2 ^ 53 ∧
    (2 * (sqrtD delta).1 - 1) ^ 2 < 4 * (delta * 4 ^ (sqrtD delta).2) ∧
    4 * (delta * 4 ^ (sqrtD delta).2) < (2 * (sqrtD delta).1 + 1) ^ 2 := by
  obtain ⟨hj1, hj2⟩ := log4_correct delta h1 (lt_trans h2 (by norm_num))
  have hjle : log4 delta ≤ 15 := by
    by_contra hcon
    have h16 : (16 : Nat) ≤ log4 delta := by omega
    have : (4 : Nat) ^ 16 ≤ 4 ^ log4 delta := Nat.pow_le_pow_right (by norm_num) h16
    omega
  have hNlo : 4 ^ 52 ≤ delta * 4 ^ (52 - log4 delta) := by
    calc (4 : Nat) ^ 52 = 4 ^ log4 delta * 4 ^ (52 - log4 delta) := by
          rw [← pow_add]
          congr 1
          omega
      _ ≤ delta * 4 ^ (52 - log4 delta) := Nat.mul_le_mul_right _ hj1
  have hNhi : delta * 4 ^ (52 - log4 delta) < 4 ^ 53 := by
    have hp : (0 : Nat) < 4 ^ (52 - log4 delta) := pow_pos (by norm_num) _
    calc delta * 4 ^ (52 - log4 delta)
        < 4 ^ (log4 delta + 1) * 4 ^ (52 - log4 delta) := (mul_lt_mul_right hp).mpr hj2
      _ = 4 ^ 53 := by
          rw [← pow_add]
          congr 1
          omega
  have hN200 : delta * 4 ^ (52 - log4 delta) < 2 ^ 200 := by
    calc delta * 4 ^ (52 - log4 delta) < 4 ^ 53 := hNhi
      _ < 2 ^ 200 := by norm_num
  obtain ⟨hs1, hs2⟩ := isqrt_correct (delta * 4 ^ (52 - log4 delta)) hN200
  exact ⟨rfl, sqrtD_spec_aux (delta * 4 ^ (52 - log4 delta))
    (isqrt (delta * 4 ^ (52 - log4 delta))) hs1 hs2 hNlo hNhi⟩

/-! ## Claims C3 and C9: the room-count formula -/

/-- On the int32 range, with no overflow in the total, the implementation
agrees with the unwrapped formula `max(3, base + 2*difficulty + bonus)`
(the bonus being the program's binary64 one, which both sides share: this
theorem isolates the `| 0` coercions). -/
theorem computeRoomCount_eq_claimed (p m d : Int)
    (hp1 : -2147483648 ≤ p) (hp2 : p < 2147483648)
    (hm1 : -2147483648 ≤ m) (hm2 : m < 2147483648)
    (hd1 : -2147483648 ≤ d) (hd2 : d < 2147483648)
    (hb : claimedRoomCount p m d < 2147483648) :
    computeRoomCount p m d = claimedRoomCount p m d := by
  have e1 := toInt32_eq_self p hp1 hp2
  have e2 := toInt32_eq_self m hm1 hm2
  have e3 := toInt32_eq_self d hd1 hd2
  simp only [computeRoomCount, claimedRoomCount, e1, e2, e3] at hb ⊢
  by_cases hc : p - m ≥ 1
  · simp only [hc, if_true] at hb ⊢
    have h1 : baseRoomsFromDelta (p - m) + d * 2 + deltaBonus (p - m)
        = baseRoomsFromDelta (p - m) + 2 * d + deltaBonus (p - m) := by ring
    rw [h1]
    have h2 : baseRoomsFromDelta (p - m) + 2 * d + deltaBonus (p - m)
        < 2147483648 := lt_of_le_of_lt (le_max_right 3 _) hb
    exact toInt32_eq_self _
      (le_trans (by norm_num) (le_max_left 3 _)) (max_lt (by norm_num) h2)
  · simp only [hc, if_false] at hb ⊢
    have h1 : baseRoomsFromDelta (p - m) + d * 2
        = baseRoomsFromDelta (p - m) + 2 * d + 0 := by ring
    rw [h1]
    have h2 : baseRoomsFromDelta (p - m) + 2 * d + 0
        < 2147483648 := lt_of_le_of_lt (le_max_right 3 _) hb
    exact toInt32_eq_self _
      (le_trans (by norm_num) (le_max_left 3 _)) (max_lt (by norm_num) h2)

/-- Claim C3, counterexample: at `difficultyLevel = 2^30` the JS `| 0`
coercion wraps `max(3, 5 + 2^31)` to a negative number, while the claimed
formula yields `2^31 + 5` (the bonus plays no role at `delta = 0`, so the
exact-real and binary64 readings of the formula agree here). -/
theorem computeRoomCount_int32_wrap_cex :
    computeRoomCount 1 1 1073741824 ≠ claimedRoomCountExact 1 1 1073741824 := by decide

set_option maxRecDepth 1000000 in
/-- Claim C3 (amended): for playerLevel, monsterLevel, difficultyLevel in the
int32 range with the total below `2^31`, `computeRoomCount` returns
`max(3, base(delta) + 2*difficultyLevel + bonus)` with `delta = playerLevel -
monsterLevel`, `base` the step function, and `bonus` the binary64 value of
`Math.ceil(1.35 * Math.sqrt(delta))` for `delta ≥ 1` else `0`; in particular
`computeRoomCount(1,1,0) = 5` and `computeRoomCount(5,1,1) = 10`.  The
claim's formula read with an exact-real `1.35·√delta` is wrong even in
range: the double `1.35` exceeds `27/20`, so at `(32401, 1, 0)` (`delta =
180²`) the program returns `249` where the exact formula says `248`. -/
theorem computeRoomCount_formula_in_range :
    (∀ p m d : Int, -2147483648 ≤ p → p < 2147483648 →
      -2147483648 ≤ m → m < 2147483648 →
      -2147483648 ≤ d → d < 2147483648 →
      claimedRoomCount p m d < 2147483648 →
      computeRoomCount p m d = claimedRoomCount p m d)
    ∧ computeRoomCount 1 1 0 = 5 ∧ computeRoomCount 5 1 1 = 10
    ∧ computeRoomCount 32401 1 0 = 249 ∧ claimedRoomCountExact 32401 1 0 = 248 := by
  refine ⟨?_, by decide, by decide, by decide, by decide⟩
  intro p m d hp1 hp2 hm1 hm2 hd1 hd2 hb
  exact computeRoomCount_eq_claimed p m d hp1 hp2 hm1 hm2 hd1 hd2 hb

/-- Witness for C3's amended theorem at `(5, 1, 1)`. -/
theorem computeRoomCount_formula_in_range_witness :
    computeRoomCount 5 1 1 = claimedRoomCount 5 1 1 ∧ claimedRoomCount 5 1 1 = 10 :=
  ⟨computeRoomCount_formula_in_range.1 5 1 1 (by decide) (by decide) (by decide)
    (by decide) (by decide) (by decide) (by decide), by decide⟩

/-- One difficulty step never decreases the unwrapped room total. -/
theorem claimedRoomCount_le_succ (p m d : Int) :
    claimedRoomCount p m d ≤ claimedRoomCount p m (d + 1) := by
  simp only [claimedRoomCount]
  refine max_le_max le_rfl ?_
  omega

/-- Claim C9, counterexample: stepping `difficultyLevel` from `2^30 - 3` to
`2^30 - 2` makes the `| 0`-wrapped room count jump from `2^31 - 1` down to
`1 - 2^31`. -/
theorem computeRoomCount_difficulty_wrap_cex :
    computeRoomCount 1 1 (1073741821 + 1) < computeRoomCount 1 1 1073741821 := by decide

set_option maxRecDepth 1000000 in
/-- Claim C9 (amended): on the int32 range, while the program's unwrapped
room total (with its binary64 bonus) stays below `2^31`, increasing
`difficultyLevel` by one never decreases `computeRoomCount`.  Guarding with
the unwrapped total of the program itself matters: a guard computed from the
exact-real bonus admits `(129601, 1, 1073741577)`, where the double bonus is
`487` (not `486`), the true total for `d+1` reaches `2^31` and the `| 0`
wrap makes the count drop. -/
theorem computeRoomCount_mono_difficulty_in_range :
    (∀ p m d : Int, -2147483648 ≤ p → p < 2147483648 →
      -2147483648 ≤ m → m < 2147483648 →
      -2147483648 ≤ d → d + 1 < 2147483648 →
      claimedRoomCount p m (d + 1) < 2147483648 →
      computeRoomCount p m d ≤ computeRoomCount p m (d + 1))
    ∧ claimedRoomCountExact 129601 1 (1073741577 + 1) < 2147483648
    ∧ computeRoomCount 129601 1 (1073741577 + 1)
        < computeRoomCount 129601 1 1073741577 := by
  refine ⟨?_, by decide, by decide⟩
  intro p m d hp1 hp2 hm1 hm2 hd1 hd2 hb
  have hb' : claimedRoomCount p m d < 2147483648 :=
    lt_of_le_of_lt (claimedRoomCount_le_succ p m d) hb
  rw [computeRoomCount_eq_claimed p m d hp1 hp2 hm1 hm2 hd1 (by omega) hb',
      computeRoomCount_eq_claimed p m (d + 1) hp1 hp2 hm1 hm2 (by omega) hd2 hb]
  exact claimedRoomCount_le_succ p m d

/-- Witness for C9's amended theorem at `(1, 1, 0)`. -/
theorem computeRoomCount_mono_difficulty_witness :
    computeRoomCount 1 1 0 ≤ computeRoomCount 1 1 (0 + 1) :=
  computeRoomCount_mono_difficulty_in_range.1 1 1 0 (by decide) (by decide) (by decide)
    (by decide) (by decide) (by decide) (by decide)

/-! ## Claim C8: determinism -/

/-- Claim C8: two `buildDungeon` calls on the same world with the same
parameters and rng functions producing the same value sequence yield equal
rooms lists, floor sets, blocked sets, doors maps, walls lists and spawn
points. -/
theorem buildDungeon_deterministic :
    ∀ (world : World) (p : Params) (f g : Rng), (∀ n, f n = g n) →
    ∀ r1 r2, buildDungeon world f p = Except.ok r1 →
    buildDungeon world g p = Except.ok r2 →
    r1.rooms = r2.rooms ∧ r1.floor = r2.floor ∧ r1.blocked = r2.blocked ∧
    r1.doors = r2.doors ∧ r1.walls = r2.walls ∧ r1.spawn = r2.spawn := by
  intro world p f g hfg r1 r2 h1 h2
  have hf : f = g := funext hfg
  subst hf
  rw [h1] at h2
  injection h2 with h
  subst h
  exact ⟨rfl, rfl, rfl, rfl, rfl, rfl⟩

/-- Witness for C8 on the concrete one-room run. -/
theorem buildDungeon_deterministic_witness :
    resE.rooms = resE.rooms ∧ resE.floor = resE.floor ∧
    resE.blocked = resE.blocked ∧ resE.doors = resE.doors ∧
    resE.walls = resE.walls ∧ resE.spawn = resE.spawn :=
  buildDungeon_deterministic worldC paramsE zeroRng zeroRng (fun _ => rfl)
    resE resE (by rfl) (by rfl)

/-! ## Claim C2: the toggle writes through to the built result -/

/-- The game state holding the degenerate-run dungeon with the hover on its
first door tile `(10,5,0)` (closed and blocked in `resD`). -/
def gameD : GameState := { dungeon := resD, hover := some (10, 5, 0) }

/-- Claim C2, counterexample: `tryToggleDoorAtHover` does not operate on a
copy — after the toggle, the blocked set and doors map of the dungeon held
by the game (in the JS source, the very collections of the frozen
`buildDungeon` result, since `Object.freeze` is shallow) differ from the
built result's collections. -/
theorem toggle_mutates_built_result_cex :
    (tryToggleDoorAtHover gameD).2.dungeon.blocked ≠ resD.blocked ∧
    (tryToggleDoorAtHover gameD).2.dungeon.doors ≠ resD.doors := by decide

/-- Claim C2 (amended): the result is only shallowly frozen, and the toggle
mutates the dungeon's own doors map and blocked set: with the hover on a
registered door with flag `b`, it returns `true`, flips the flag to `!b`,
and leaves the tile in the blocked set exactly when the door is now closed
(i.e. when `b` was `true`). -/
theorem toggle_updates_door_and_blocked :
    ∀ (g : GameState) (k : Key) (b : Bool),
    g.hover = some k → mapFind g.dungeon.doors k = some b →
    (tryToggleDoorAtHover g).1 = true ∧
    mapFind (tryToggleDoorAtHover g).2.dungeon.doors k = some (!b) ∧
    (k ∈ (tryToggleDoorAtHover g).2.dungeon.blocked ↔ b = true) := by
  intro g k b hh hf
  have he : tryToggleDoorAtHover g =
      (true, { g with dungeon := { g.dungeon with
        doors := mapSet g.dungeon.doors k (!b),
        blocked := if !b then setDelete g.dungeon.blocked k
                   else setAdd g.dungeon.blocked k } }) := by
    simp only [tryToggleDoorAtHover, hh, hf]
  rw [he]
  refine ⟨rfl, mapFind_mapSet_self _ _ _, ?_⟩
  cases b
  · simp [setDelete_mem]
  · simp [mem_setAdd_self]

/-- Witness for C2's amended theorem on a one-door game state. -/
def gameW : GameState :=
  { dungeon := { rooms := [], spawn := (0, 0, 0), floor := [],
                 blocked := [(5, 5, 0)], doors := [((5, 5, 0), false)], walls := [] },
    hover := some (5, 5, 0) }

/-- Witness: applying the amended C2 theorem to the concrete one-door game. -/
theorem toggle_updates_door_and_blocked_witness :
    (tryToggleDoorAtHover gameW).1 = true ∧
    mapFind (tryToggleDoorAtHover gameW).2.dungeon.doors (5, 5, 0) = some (!false) ∧
    ((5, 5, 0) ∈ (tryToggleDoorAtHover gameW).2.dungeon.blocked ↔ false = true) :=
  toggle_updates_door_and_blocked gameW (5, 5, 0) false rfl rfl

/-! ## Claim C1: a corridor can carve a closed door out of the blocked set -/

set_option maxRecDepth 1000000 in
set_option maxHeartbeats 4000000 in
/-- Claim C1, failing run: in the returned dungeon of the concrete 23×9 run
(`worldA`, `rngA`, `paramsA`), the door at `(13,4,0)` is registered closed
(`open = false`) yet its key is absent from the blocked set: the corridor
between rooms 1 and 2 ran straight west through room 0 and `carveCorridor`
deleted the door tile from `blocked`.  This contradicts the door-blocked
consistency invariant (and the source's own header comment that `blocked`
holds "perimeter walls + any closed doors"). -/
theorem door_carved_through_unblocked_cex :
    mapFind resA.doors (13, 4, 0) = some false ∧ (13, 4, 0) ∉ resA.blocked := by decide

/-! ## Placement lemmas -/

/-- The bounds the claims talk about: every room tile at least 2 tiles from
every grid edge (margin `2`, with a nonempty rectangle). -/
def roomInMargins (world : World) (r : Rect) : Prop :=
  2 ≤ r.left ∧ r.left ≤ r.right ∧ r.right ≤ world.w - 3 ∧
  2 ≤ r.top ∧ r.top ≤ r.bottom ∧ r.bottom ≤ world.h - 3

instance (world : World) (r : Rect) : Decidable (roomInMargins world r) := by
  unfold roomInMargins
  infer_instance

/-- The zero rng is a valid random source. -/
theorem zeroRng_valid : ValidRng zeroRng := by
  intro n
  constructor
  · simp [zeroRng, rngOfList]
  · simp [zeroRng, rngOfList]

/-- A successful centered placement of a nonempty rectangle satisfies the
margin bounds. -/
theorem tryPlaceRoomAtCenter_some (world : World) (col row w h : Int) (rect : Rect)
    (hw : 1 ≤ w) (hh : 1 ≤ h)
    (hsome : tryPlaceRoomAtCenter world col row w h = some rect) :
    roomInMargins world rect := by
  simp only [tryPlaceRoomAtCenter, dungeonMargin] at hsome
  split at hsome
  · exact absurd hsome (by simp)
  · next hcond =>
    injection hsome with he
    subst he
    simp only [Bool.or_eq_true, decide_eq_true_eq, not_or] at hcond
    unfold roomInMargins
    dsimp only
    refine ⟨?_, ?_, ?_, ?_, ?_, ?_⟩ <;> omega

/-- A successful single attempt places within the margins (valid rng,
positive size knobs). -/
theorem placeAttemptOnce_some_shape (world : World) (f : Rng) (kn : PlaceKnobs)
    (prev : Room) (rooms : List Room) (i : Nat) (rect : Rect)
    (hf : ValidRng f) (h1w : 1 ≤ kn.roomMinW) (hw : kn.roomMinW ≤ kn.roomMaxW)
    (h1h : 1 ≤ kn.roomMinH) (hh : kn.roomMinH ≤ kn.roomMaxH)
    (hs : (placeAttemptOnce world f kn prev rooms i).1 = some rect) :
    roomInMargins world rect := by
  simp only [placeAttemptOnce] at hs
  split at hs
  · simp at hs
  · next rect2 heq =>
    split at hs
    · simp at hs
    · have h2 : some rect2 = some rect := hs
      injection h2 with h2
      subst h2
      have hwB := randInt_bounds f hf i kn.roomMinW kn.roomMaxW hw
      have hhB := randInt_bounds f hf (randInt f i kn.roomMinW kn.roomMaxW).2
        kn.roomMinH kn.roomMaxH hh
      exact tryPlaceRoomAtCenter_some world _ _ _ _ rect2 (by omega) (by omega) heq

/-- A successful single attempt does not overlap (with `roomPad` inflation)
any already-accepted room. -/
theorem placeAttemptOnce_some_no_overlap (world : World) (f : Rng) (kn : PlaceKnobs)
    (prev : Room) (rooms : List Room) (i : Nat) (rect : Rect)
    (hs : (placeAttemptOnce world f kn prev rooms i).1 = some rect) :
    ∀ ex ∈ rooms, rectsOverlap rect ex.rect kn.roomPad = false := by
  simp only [placeAttemptOnce] at hs
  split at hs
  · simp at hs
  · next rect2 heq =>
    split at hs
    · simp at hs
    · next hov =>
      have h2 : some rect2 = some rect := hs
      injection h2 with h2
      subst h2
      intro ex hex
      rw [Bool.not_eq_true] at hov
      have := List.any_eq_false.mp hov ex hex
      simpa using this

/-- Lift of `placeAttemptOnce_some_shape` through the retry loop. -/
theorem attemptPlace_some_shape (world : World) (f : Rng) (kn : PlaceKnobs)
    (prev : Room) (rooms : List Room)
    (hf : ValidRng f) (h1w : 1 ≤ kn.roomMinW) (hw : kn.roomMinW ≤ kn.roomMaxW)
    (h1h : 1 ≤ kn.roomMinH) (hh : kn.roomMinH ≤ kn.roomMaxH) :
    ∀ (a i : Nat) (rect : Rect),
    (attemptPlace world f kn prev rooms a i).1 = some rect →
    roomInMargins world rect := by
  intro a
  induction a with
  | zero =>
    intro i rect hs
    simp [attemptPlace] at hs
  | succ a ih =>
    intro i rect hs
    simp only [attemptPlace] at hs
    split at hs
    · exact ih _ rect hs
    · next i2 heq =>
      have : (placeAttemptOnce world f kn prev rooms i).1 = some rect := by
        rw [heq]
        exact hs
      exact placeAttemptOnce_some_shape world f kn prev rooms i rect hf h1w hw h1h hh this

/-- Lift of `placeAttemptOnce_some_no_overlap` through the retry loop. -/
theorem attemptPlace_some_no_overlap (world : World) (f : Rng) (kn : PlaceKnobs)
    (prev : Room) (rooms : List Room) :
    ∀ (a i : Nat) (rect : Rect),
    (attemptPlace world f kn prev rooms a i).1 = some rect →
    ∀ ex ∈ rooms, rectsOverlap rect ex.rect kn.roomPad = false := by
  intro a
  induction a with
  | zero =>
    intro i rect hs
    simp [attemptPlace] at hs
  | succ a ih =>
    intro i rect hs
    simp only [attemptPlace] at hs
    split at hs
    · exact ih _ rect hs
    · next i2 heq =>
      have : (placeAttemptOnce world f kn prev rooms i).1 = some rect := by
        rw [heq]
        exact hs
      exact placeAttemptOnce_some_no_overlap world f kn prev rooms i rect this

/-- The accumulated room list is a prefix of the placement loop's output. -/
theorem placeLoop_prefix (world : World) (f : Rng) (kn : PlaceKnobs) (ma : Nat) :
    ∀ (n i : Nat) (prev : Room) (rooms : List Room),
    rooms <+: (placeLoop world f kn ma n i prev rooms).1 := by
  intro n
  induction n with
  | zero =>
    intro i prev rooms
    simp [placeLoop]
  | succ n ih =>
    intro i prev rooms
    simp only [placeLoop]
    split
    · exact List.prefix_refl _
    · next rect heq =>
      exact List.IsPrefix.trans (List.prefix_append rooms _) (ih _ _ _)

/-- An exhausted budget stops the placement loop with the rooms kept. -/
theorem placeLoop_stops (world : World) (f : Rng) (kn : PlaceKnobs) (ma : Nat)
    (n i : Nat) (prev : Room) (rooms : List Room)
    (h : (attemptPlace world f kn prev rooms ma i).1 = none) :
    (placeLoop world f kn ma (n + 1) i prev rooms).1 = rooms := by
  simp only [placeLoop]
  split
  · rfl
  · next rect heq =>
    rw [heq] at h
    cases h

/-- Every room the placement loop emits either was in the accumulator or
satisfies the margin bounds. -/
theorem placeLoop_shape (world : World) (f : Rng) (kn : PlaceKnobs) (ma : Nat)
    (hf : ValidRng f) (h1w : 1 ≤ kn.roomMinW) (hw : kn.roomMinW ≤ kn.roomMaxW)
    (h1h : 1 ≤ kn.roomMinH) (hh : kn.roomMinH ≤ kn.roomMaxH) :
    ∀ (n i : Nat) (prev : Room) (rooms : List Room),
    (∀ r ∈ rooms, roomInMargins world r.rect) →
    ∀ r ∈ (placeLoop world f kn ma n i prev rooms).1, roomInMargins world r.rect := by
  intro n
  induction n with
  | zero =>
    intro i prev rooms hinv r hr
    simp only [placeLoop] at hr
    exact hinv r hr
  | succ n ih =>
    intro i prev rooms hinv r hr
    simp only [placeLoop] at hr
    split at hr
    · exact hinv r hr
    · next rect heq =>
      refine ih _ _ _ ?_ r hr
      intro r2 hr2
      rcases List.mem_append.mp hr2 with h2 | h2
      · exact hinv r2 h2
      · rcases List.mem_singleton.mp h2 with rfl
        exact attemptPlace_some_shape world f kn prev rooms hf h1w hw h1h hh ma i rect heq

/-- The propositional reading of `rectsOverlap ... = false`. -/
theorem rectsOverlap_eq_false_iff (a b : Rect) (p : Int) :
    rectsOverlap a b p = false ↔
    (a.right + p < b.left ∨ b.right < a.left - p ∨
     a.bottom + p < b.top ∨ b.bottom < a.top - p) := by
  simp [rectsOverlap]
  omega

/-- Overlap-freedom (inflated by `roomPad`) is invariant under the placement
loop. -/
theorem placeLoop_pairwise (world : World) (f : Rng) (kn : PlaceKnobs) (ma : Nat) :
    ∀ (n i : Nat) (prev : Room) (rooms : List Room),
    List.Pairwise (fun r1 r2 : Room => rectsOverlap r1.rect r2.rect kn.roomPad = false)
      rooms →
    List.Pairwise (fun r1 r2 : Room => rectsOverlap r1.rect r2.rect kn.roomPad = false)
      (placeLoop world f kn ma n i prev rooms).1 := by
  intro n
  induction n with
  | zero =>
    intro i prev rooms hinv
    simpa [placeLoop] using hinv
  | succ n ih =>
    intro i prev rooms hinv
    simp only [placeLoop]
    split
    · exact hinv
    · next rect heq =>
      apply ih
      rw [List.pairwise_append]
      refine ⟨hinv, List.pairwise_singleton _ _, ?_⟩
      intro r1 h1 r2 h2
      rcases List.mem_singleton.mp h2 with rfl
      have hno := attemptPlace_some_no_overlap world f kn prev rooms ma i rect heq r1 h1
      dsimp only
      rw [rectsOverlap_eq_false_iff] at hno ⊢
      omega

/-- Corridor connection keeps every room's rectangle unchanged (only
`doorKeys` grow). -/
theorem connectLoop_rects (world : World) (z : Int) :
    ∀ (l : List Room) (prev : Room) (st : CarveState),
    ((connectLoop world z prev l st).1).map Room.rect = prev.rect :: l.map Room.rect := by
  intro l
  induction l with
  | nil =>
    intro prev st
    simp [connectLoop]
  | cons b rest ih =>
    intro prev st
    simp only [connectLoop, List.map_cons]
    rw [ih]
    rfl

/-- Corridor connection keeps the rectangle list of the rooms unchanged. -/
theorem connectRooms_rects (world : World) (z : Int) (l : List Room) (st : CarveState) :
    ((connectRooms world z l st).1).map Room.rect = l.map Room.rect := by
  cases l with
  | nil => rfl
  | cons a rest =>
    simp only [connectRooms]
    rw [connectLoop_rects]
    rfl

/-- Corridor connection preserves the number of rooms. -/
theorem connectRooms_length (world : World) (z : Int) (l : List Room) (st : CarveState) :
    ((connectRooms world z l st).1).length = l.length := by
  have h := congrArg List.length (connectRooms_rects world z l st)
  simpa using h

/-- Transfer of a rectangle predicate along an equal rectangle list. -/
theorem all_rect_of_map_eq (P : Rect → Prop) (l l2 : List Room)
    (hmap : l2.map Room.rect = l.map Room.rect)
    (h : ∀ r ∈ l, P r.rect) : ∀ r ∈ l2, P r.rect := by
  intro r hr
  have hm : r.rect ∈ l2.map Room.rect := List.mem_map_of_mem Room.rect hr
  rw [hmap] at hm
  obtain ⟨r0, hr0, he⟩ := List.mem_map.mp hm
  rw [← he]
  exact h r0 hr0

/-- Transfer of a pairwise rectangle relation along an equal rectangle
list. -/
theorem pairwise_rect_of_map_eq (R : Rect → Rect → Prop) (l l2 : List Room)
    (hmap : l2.map Room.rect = l.map Room.rect)
    (h : List.Pairwise (fun a b : Room => R a.rect b.rect) l) :
    List.Pairwise (fun a b : Room => R a.rect b.rect) l2 := by
  have h1 : List.Pairwise R (l.map Room.rect) := List.pairwise_map.mpr h
  rw [← hmap] at h1
  exact List.pairwise_map.mp h1

/-- The rooms field of the assembled result is the corridor phase's output
on the stamped state. -/
theorem assembleResult_rooms (world : World) (z : Int) (rooms : List Room) :
    (assembleResult world z rooms).rooms =
    (connectRooms world z rooms
      { floor := rooms.foldl (fun fl r => stampFloor world z r.rect fl) [],
        blocked := rooms.foldl (fun bl r => stampBlocked world z r.rect bl) [],
        doors := [] }).1 := rfl

/-- The placement loop always keeps at least room 0. -/
theorem placedRooms_length (world : World) (f : Rng) (p : Params) (rect0 : Rect) :
    1 ≤ (placedRooms world f p rect0).length := by
  have hp := placeLoop_prefix world f (knobsOf p) p.maxRoomAttempts.toNat
      (computeRoomCount p.playerLevel p.monsterLevel p.difficultyLevel - 1).toNat
      (randInt f (randInt f 0 p.roomMinW p.roomMaxW).2 p.roomMinH p.roomMaxH).2
      { rect := rect0, doorKeys := [] } [{ rect := rect0, doorKeys := [] }]
  have hl := hp.length_le
  simpa [placedRooms] using hl

/-! ## Claim C4: two-tier error policy -/

/-- Claim C4: `buildDungeon` raises an error exactly when the sampled first
room cannot be placed centered within the margins (`firstRoomRect = none`);
a successful build keeps at least room 0; and a later room whose attempt
budget is exhausted stops the placement loop early, keeping exactly the
rooms placed so far. -/
theorem buildDungeon_error_policy :
    (∀ (world : World) (f : Rng) (p : Params),
      (∃ e, buildDungeon world f p = Except.error e) ↔ firstRoomRect world f p = none)
    ∧ (∀ (world : World) (f : Rng) (p : Params) (res : DungeonResult),
      buildDungeon world f p = Except.ok res → 1 ≤ res.rooms.length)
    ∧ (∀ (world : World) (f : Rng) (kn : PlaceKnobs) (ma n i : Nat) (prev : Room)
        (rooms : List Room),
      (attemptPlace world f kn prev rooms ma i).1 = none →
      (placeLoop world f kn ma (n + 1) i prev rooms).1 = rooms) := by
  refine ⟨?_, ?_, ?_⟩
  · intro world f p
    constructor
    · rintro ⟨e, he⟩
      simp only [buildDungeon] at he
      split at he
      · next heq => exact heq
      · simp at he
    · intro h
      exact ⟨failMsg, by simp [buildDungeon, h]⟩
  · intro world f p res h
    simp only [buildDungeon] at h
    split at h
    · simp at h
    · next rect0 heq =>
      injection h with h
      subst h
      rw [assembleResult_rooms, connectRooms_length]
      exact placedRooms_length world f p rect0
  · intro world f kn ma n i prev rooms h
    exact placeLoop_stops world f kn ma n i prev rooms h

/-- Witness for C4 on the concrete one-room run. -/
theorem buildDungeon_error_policy_witness : 1 ≤ resE.rooms.length :=
  buildDungeon_error_policy.2.1 worldC zeroRng paramsE resE (by rfl)

/-! ## Claim C5: pairwise non-overlap -/

set_option maxHeartbeats 1000000 in
/-- Claim C5: in any dungeon `buildDungeon` returns, the rooms' rectangles,
inflated by `roomPad`, are pairwise non-overlapping. -/
theorem buildDungeon_rooms_pairwise_disjoint :
    ∀ (world : World) (f : Rng) (p : Params) (res : DungeonResult),
    buildDungeon world f p = Except.ok res →
    List.Pairwise
      (fun r1 r2 : Room => rectsOverlap r1.rect r2.rect p.roomPad = false) res.rooms := by
  intro world f p res h
  simp only [buildDungeon] at h
  split at h
  · simp at h
  · next rect0 heq =>
    injection h with h
    subst h
    rw [assembleResult_rooms]
    refine pairwise_rect_of_map_eq (fun x y => rectsOverlap x y p.roomPad = false)
      (placedRooms world f p rect0) _ (connectRooms_rects _ _ _ _) ?_
    show List.Pairwise
      (fun r1 r2 : Room => rectsOverlap r1.rect r2.rect p.roomPad = false)
      (placedRooms world f p rect0)
    unfold placedRooms
    exact placeLoop_pairwise world f (knobsOf p) p.maxRoomAttempts.toNat _ _ _ _
      (List.pairwise_singleton _ _)

/-- Witness for C5 on the concrete degenerate-size run. -/
theorem buildDungeon_rooms_pairwise_disjoint_witness :
    List.Pairwise
      (fun r1 r2 : Room => rectsOverlap r1.rect r2.rect paramsD.roomPad = false)
      resD.rooms :=
  buildDungeon_rooms_pairwise_disjoint worldA zeroRng paramsD resD (by rfl)

/-! ## Claim C10: the fixed placement margin 2 -/

/-- Claim C10, counterexample: with the degenerate sizing knobs
`roomMinW = roomMaxW = roomMinH = roomMaxH = 0` the build succeeds but room 0
has `right = left - 1`, so `2 ≤ left ≤ right ≤ w − 3` fails. -/
theorem room_margin_degenerate_cex :
    (buildDungeon worldA zeroRng paramsD).isOk = true ∧
    ¬ roomInMargins worldA resD.rooms.headI.rect := by decide

/-- Claim C10 (amended): for positive sampled sizes (valid rng and
`1 ≤ roomMinW ≤ roomMaxW`, `1 ≤ roomMinH ≤ roomMaxH`) every room of a
returned dungeon satisfies `2 ≤ left ≤ right ≤ w-3` and
`2 ≤ top ≤ bottom ≤ h-3`, independent of the other knobs and of
`estimateWorldSize`'s margin parameter. -/
theorem rooms_within_margins :
    ∀ (world : World) (f : Rng) (p : Params) (res : DungeonResult),
    ValidRng f → 1 ≤ p.roomMinW → p.roomMinW ≤ p.roomMaxW →
    1 ≤ p.roomMinH → p.roomMinH ≤ p.roomMaxH →
    buildDungeon world f p = Except.ok res →
    ∀ r ∈ res.rooms, roomInMargins world r.rect := by
  intro world f p res hf hw1 hw2 hh1 hh2 h
  simp only [buildDungeon] at h
  split at h
  · simp at h
  · next rect0 heq =>
    injection h with h
    subst h
    rw [assembleResult_rooms]
    refine all_rect_of_map_eq (roomInMargins world) (placedRooms world f p rect0) _
      (connectRooms_rects _ _ _ _) ?_
    unfold placedRooms
    apply placeLoop_shape world f (knobsOf p) _ hf hw1 hw2 hh1 hh2
    intro r hr
    rcases List.mem_singleton.mp hr with rfl
    dsimp only
    simp only [firstRoomRect] at heq
    have hrw := randInt_bounds f hf 0 p.roomMinW p.roomMaxW hw2
    have hrh := randInt_bounds f hf (randInt f 0 p.roomMinW p.roomMaxW).2
      p.roomMinH p.roomMaxH hh2
    exact tryPlaceRoomAtCenter_some world _ _ _ _ rect0 (by omega) (by omega) heq

/-- Witness for C10's amended theorem on the concrete one-room run. -/
theorem rooms_within_margins_witness : roomInMargins worldC resE.rooms.headI.rect :=
  rooms_within_margins worldC zeroRng paramsE resE zeroRng_valid (by decide) (by decide)
    (by decide) (by decide) (by rfl) resE.rooms.headI (by decide)

/-! ## Floor-stamping membership lemmas (for claim C7) -/

/-- `x ∈ intRange lo hi ↔ lo ≤ x ≤ hi`. -/
theorem mem_intRange (lo hi x : Int) : x ∈ intRange lo hi ↔ lo ≤ x ∧ x ≤ hi := by
  unfold intRange
  rw [List.mem_map]
  constructor
  · rintro ⟨n, hn, rfl⟩
    rw [List.mem_range] at hn
    omega
  · intro hx
    refine ⟨(x - lo).toNat, ?_, ?_⟩
    · rw [List.mem_range]
      omega
    · omega

/-- The per-row column fold of `stampFloor` only adds keys. -/
theorem stampFloor_cols_preserve (world : World) (z r : Int) :
    ∀ (cols : List Int) (fl : List Key) (k : Key), k ∈ fl →
    k ∈ cols.foldl
      (fun fl2 col => if inBounds col r world then setAdd fl2 (keyOf col r z) else fl2) fl := by
  intro cols
  induction cols with
  | nil =>
    intro fl k hk
    exact hk
  | cons c cs ih =>
    intro fl k hk
    simp only [List.foldl_cons]
    apply ih
    split
    · exact setAdd_mem_of_mem _ _ _ hk
    · exact hk

/-- The per-row column fold of `stampFloor` adds every in-bounds listed
column. -/
theorem stampFloor_cols_mem (world : World) (z r : Int) :
    ∀ (cols : List Int) (fl : List Key) (c : Int), c ∈ cols →
    inBounds c r world = true →
    (c, r, z) ∈ cols.foldl
      (fun fl2 col => if inBounds col r world then setAdd fl2 (keyOf col r z) else fl2) fl := by
  intro cols
  induction cols with
  | nil =>
    intro fl c hc
    simp at hc
  | cons c0 cs ih =>
    intro fl c hc hib
    rcases List.mem_cons.mp hc with rfl | hc
    · simp only [List.foldl_cons, hib, if_true]
      exact stampFloor_cols_preserve world z r cs _ _ (mem_setAdd_self _ _)
    · simp only [List.foldl_cons]
      exact ih _ c hc hib

/-- `stampFloor` only adds keys. -/
theorem stampFloor_preserve (world : World) (z : Int) (rect : Rect) :
    ∀ (rows : List Int) (fl : List Key) (k : Key), k ∈ fl →
    k ∈ rows.foldl
      (fun fl row =>
        (intRange (rect.left + 1) (rect.right - 1)).foldl
          (fun fl2 col => if inBounds col row world then setAdd fl2 (keyOf col row z) else fl2)
          fl) fl := by
  intro rows
  induction rows with
  | nil =>
    intro fl k hk
    exact hk
  | cons r rs ih =>
    intro fl k hk
    simp only [List.foldl_cons]
    exact ih _ k (stampFloor_cols_preserve world z r _ fl k hk)

/-- Every in-bounds interior tile of the rectangle lands in the floor set. -/
theorem stampFloor_mem (world : World) (z : Int) (rect : Rect) (fl : List Key)
    (c r : Int) (hc1 : rect.left < c) (hc2 : c < rect.right)
    (hr1 : rect.top < r) (hr2 : r < rect.bottom)
    (hib : inBounds c r world = true) :
    (c, r, z) ∈ stampFloor world z rect fl := by
  unfold stampFloor
  have hrmem : r ∈ intRange (rect.top + 1) (rect.bottom - 1) :=
    (mem_intRange _ _ _).mpr (by omega)
  have hcmem : c ∈ intRange (rect.left + 1) (rect.right - 1) :=
    (mem_intRange _ _ _).mpr (by omega)
  revert fl
  generalize intRange (rect.top + 1) (rect.bottom - 1) = rows at hrmem
  induction rows with
  | nil => simp at hrmem
  | cons r0 rs ih =>
    intro fl
    rcases List.mem_cons.mp hrmem with rfl | hr
    · simp only [List.foldl_cons]
      exact stampFloor_preserve world z rect rs _ _
        (stampFloor_cols_mem world z r _ fl c hcmem hib)
    · simp only [List.foldl_cons]
      exact ih hr _

/-- Interior tiles of a margin-respecting rectangle are in bounds. -/
theorem inBounds_of_margins (world : World) (rect : Rect) (c r : Int)
    (hm : roomInMargins world rect)
    (hc1 : rect.left ≤ c) (hc2 : c ≤ rect.right)
    (hr1 : rect.top ≤ r) (hr2 : r ≤ rect.bottom) :
    inBounds c r world = true := by
  obtain ⟨h1, h2, h3, h4, h5, h6⟩ := hm
  simp only [inBounds, Bool.and_eq_true, decide_eq_true_eq]
  refine ⟨⟨⟨by omega, by omega⟩, by omega⟩, by omega⟩

/-! ## Claim C7: the `buildDefault` wrapper -/

set_option maxRecDepth 1000000 in
set_option maxHeartbeats 1000000 in
/-- Claim C7, counterexample: `buildDefault` does not return exactly one room
for every world and rng — on the 40×13 world with an rng whose single
placement attempt for room 1 succeeds (14 steps east), the result keeps two
rooms. -/
theorem buildDefault_two_rooms_cex :
    (buildDefault worldB rngB 0).isOk = true ∧ resB.dungeon.rooms.length = 2 := by decide

/-- `Math.floor` division by a nonnegative divisor is Euclidean division. -/
theorem floorDiv_eq_ediv (a b : Int) (hb : 0 ≤ b) : floorDiv a b = a / b :=
  Int.fdiv_eq_ediv a hb

/-- Claim C7 (amended): whenever `buildDefault` returns a result that kept
only room 0 (every later single-attempt placement failed), that room is 9×7
(width×height inclusive of perimeter), the doors map holds exactly one door
— closed, at the center of the room's bottom wall, strictly between its
corners — and the floor set contains the room's full 7×5 interior. -/
theorem buildDefault_single_room_shape :
    ∀ (world : World) (f : Rng) (z : Int) (res : BuildDefaultResult),
    ValidRng f → buildDefault world f z = Except.ok res →
    res.dungeon.rooms.length = 1 →
    ∃ r0 : Room,
      res.dungeon.rooms = [r0] ∧
      r0.rect.right - r0.rect.left + 1 = 9 ∧
      r0.rect.bottom - r0.rect.top + 1 = 7 ∧
      res.dungeon.doors =
        [((floorDiv (r0.rect.left + r0.rect.right) 2, r0.rect.bottom, z), false)] ∧
      r0.rect.left < floorDiv (r0.rect.left + r0.rect.right) 2 ∧
      floorDiv (r0.rect.left + r0.rect.right) 2 < r0.rect.right ∧
      (∀ c r : Int, r0.rect.left < c → c < r0.rect.right →
        r0.rect.top < r → r < r0.rect.bottom → (c, r, z) ∈ res.dungeon.floor) := by
  intro world f z res hf h hlen
  simp only [buildDefault] at h
  split at h
  · exact Except.noConfusion h
  · next d hd =>
    have hrw : (randInt f 0 (defaultParams z).roomMinW (defaultParams z).roomMaxW).1 = 9 := by
      show (randInt f 0 9 9).1 = 9
      exact randInt_const f hf 0 9
    have hrh : (randInt f (randInt f 0 (defaultParams z).roomMinW
        (defaultParams z).roomMaxW).2 (defaultParams z).roomMinH
        (defaultParams z).roomMaxH).1 = 7 := by
      show (randInt f _ 7 7).1 = 7
      exact randInt_const f hf _ 7
    simp only [buildDungeon] at hd
    split at hd
    · exact Except.noConfusion hd
    · next rect0 heq =>
      injection hd with hd
      subst hd
      simp only [firstRoomRect] at heq
      rw [hrw, hrh] at heq
      have hmarg : roomInMargins world rect0 :=
        tryPlaceRoomAtCenter_some world _ _ 9 7 rect0 (by norm_num) (by norm_num) heq
      have hdim : rect0.right = rect0.left + 8 ∧ rect0.bottom = rect0.top + 6 := by
        simp only [tryPlaceRoomAtCenter] at heq
        split at heq
        · exact Option.noConfusion heq
        · injection heq with heq2
          subst heq2
          constructor
          · dsimp only
            omega
          · dsimp only
            omega
      set P := placedRooms world f (defaultParams z) rect0 with hP
      have hdl : (assembleResult world (defaultParams z).z P).rooms.length = P.length := by
        rw [assembleResult_rooms, connectRooms_length]
      have hplen : P.length = 1 := by
        have h2 := h
        split at h2
        · next hcond =>
          injection h2 with h2
          rw [← h2] at hlen
          dsimp only at hlen
          rw [hdl] at hlen
          exact hlen
        · next hcond =>
          injection h2 with h2
          rw [← h2] at hlen
          dsimp only at hlen
          rcases hcase : (assembleResult world (defaultParams z).z P).rooms with _ | ⟨rr, rest⟩
          · rw [hcase] at hlen hdl
            simp at hlen
          · rw [hcase] at hlen hdl
            dsimp only at hlen
            simp only [List.length_cons] at hlen hdl
            omega
      have hpre : [({ rect := rect0, doorKeys := [] } : Room)] <+: P := by
        rw [hP]
        unfold placedRooms
        exact placeLoop_prefix _ _ _ _ _ _ _ _
      have hpr : P = [({ rect := rect0, doorKeys := [] } : Room)] :=
        (hpre.eq_of_length (by simp [hplen])).symm
      rw [hpr] at h
      have hmid : floorDiv (rect0.left + rect0.right) 2 = rect0.left + 4 := by
        rw [floorDiv_eq_ediv _ _ (by norm_num)]
        omega
      split at h
      · next hcond =>
        exfalso
        have hdoors0 : (assembleResult world (defaultParams z).z
            [({ rect := rect0, doorKeys := [] } : Room)]).doors = [] := rfl
        rw [hdoors0] at hcond
        simp [mapHas, mapFind] at hcond
      · next hcond =>
        injection h with h
        subst h
        refine ⟨{ rect := rect0,
                  doorKeys := [(floorDiv (rect0.left + rect0.right) 2, rect0.bottom, z)] },
          ?_, ?_, ?_, ?_, ?_, ?_, ?_⟩
        · rfl
        · dsimp only
          omega
        · dsimp only
          omega
        · rfl
        · dsimp only
          rw [hmid]
          omega
        · dsimp only
          rw [hmid]
          omega
        · intro c r h1 h2 h3 h4
          dsimp only at h1 h2 h3 h4 ⊢
          show (c, r, z) ∈ stampFloor world z rect0 []
          apply stampFloor_mem world z rect0 [] c r h1 h2 h3 h4
          apply inBounds_of_margins world rect0 c r hmarg
          · omega
          · omega
          · omega
          · omega

/-- Witness for C7's amended theorem on the concrete one-room
`buildDefault` run. -/
theorem buildDefault_single_room_shape_witness :
    ∃ r0 : Room,
      resC.dungeon.rooms = [r0] ∧
      r0.rect.right - r0.rect.left + 1 = 9 ∧
      r0.rect.bottom - r0.rect.top + 1 = 7 ∧
      resC.dungeon.doors =
        [((floorDiv (r0.rect.left + r0.rect.right) 2, r0.rect.bottom, 0), false)] ∧
      r0.rect.left < floorDiv (r0.rect.left + r0.rect.right) 2 ∧
      floorDiv (r0.rect.left + r0.rect.right) 2 < r0.rect.right ∧
      (∀ c r : Int, r0.rect.left < c → c < r0.rect.right →
        r0.rect.top < r → r < r0.rect.bottom → (c, r, 0) ∈ resC.dungeon.floor) :=
  buildDefault_single_room_shape worldC zeroRng 0 resC zeroRng_valid (by rfl) (by decide)

/-! ## Claim C6: the corridor BFS -/

/-- The bounds test, propositionally. -/
theorem inBounds_iff (c r : Int) (world : World) :
    inBounds c r world = true ↔ 0 ≤ c ∧ 0 ≤ r ∧ c < world.w ∧ r < world.h := by
  simp only [inBounds, Bool.and_eq_true, decide_eq_true_eq, ge_iff_le]
  tauto

/-- A key all of whose in-bounds odd-r neighbors are already visited. -/
def Expanded (world : World) (z : Int) (visited : List Key) (k : Key) : Prop :=
  ∀ d : Dir,
    inBounds (neighborOddR k.1 k.2.1 d).1 (neighborOddR k.1 k.2.1 d).2 world = true →
    ((neighborOddR k.1 k.2.1 d).1, (neighborOddR k.1 k.2.1 d).2, z) ∈ visited

/-- Visited supersets keep a key expanded. -/
theorem Expanded.mono (world : World) (z : Int) (v v2 : List Key) (k : Key)
    (hsub : ∀ x ∈ v, x ∈ v2) (h : Expanded world z v k) : Expanded world z v2 k :=
  fun d hd => hsub _ (h d hd)

/-- The `bfsLoop` invariant: `visited` holds distinct in-bounds keys at level
`z` headed by the start key; the queue's cells are visited; every parent
entry records a real odd-r step from a strictly earlier visited key; every
visited key is either still queued or fully expanded. -/
structure BfsInv (world : World) (z : Int) (startK : Key) (q : List (Int × Int))
    (visited : List Key) (parent : List (Key × Key)) : Prop where
  nodup : visited.Nodup
  vz : ∀ k ∈ visited, k.2.2 = z
  vbounds : ∀ k ∈ visited, inBounds k.1 k.2.1 world = true
  shape : ∃ rest, visited = startK :: rest ∧ parent.map (fun e => e.1) = rest
  qmem : ∀ c ∈ q, (c.1, c.2, z) ∈ visited
  pedge : ∀ e ∈ parent, e.2 ∈ visited ∧
    (∃ d : Dir, (e.1.1, e.1.2.1) = neighborOddR e.2.1 e.2.2.1 d) ∧
    List.indexOf e.2 visited < List.indexOf e.1 visited
  closure : ∀ k ∈ visited,
    (∃ c ∈ q, (c.1, c.2, z) = k) ∨ Expanded world z visited k

theorem pmapFind_isSome_of_mem_fst (m : List (Key × Key)) (k : Key) :
    k ∈ m.map (fun e => e.1) → (pmapFind m k).isSome := by
  induction m with
  | nil => intro h; simp at h
  | cons e rest ih =>
    intro h
    by_cases he : e.1 = k
    · simp [pmapFind, he]
    · simp only [List.map_cons, List.mem_cons] at h
      rcases h with h | h
    
      · exact absurd h.symm he
      · simp only [pmapFind, he, if_false]
        exact ih h

theorem pmapFind_mem (m : List (Key × Key)) (k pk : Key) :
    pmapFind m k = some pk → (k, pk) ∈ m := by
  induction m with
  | nil => intro h; simp [pmapFind] at h
  | cons e rest ih =>
    intro h
    by_cases he : e.1 = k
    · simp only [pmapFind, he, if_true] at h
      injection h with h
      rw [← he, ← h]
      exact List.mem_cons_self _ _
    · simp only [pmapFind, he, if_false] at h
      exact List.mem_cons_of_mem _ (ih h)

theorem pmapFind_append_isSome (m1 m2 : List (Key × Key)) (k : Key)
    (h : (pmapFind m1 k).isSome) : pmapFind (m1 ++ m2) k = pmapFind m1 k := by
  induction m1 with
  | nil => simp [pmapFind] at h
  | cons e rest ih =>
    by_cases he : e.1 = k
    · simp [pmapFind, he]
    · simp only [pmapFind, he, if_false] at h ⊢
      exact ih h

/-- All in-bounds keys at level `z`, enumerated row-major. -/
def allCellKeys (world : World) (z : Int) : List Key :=
  (List.range (world.h.toNat * world.w.toNat)).map
    (fun n => (((n % world.w.toNat : Nat) : Int), ((n / world.w.toNat : Nat) : Int), z))

theorem mem_allCellKeys (world : World) (z : Int) (k : Key)
    (hb : inBounds k.1 k.2.1 world = true) (hz : k.2.2 = z) :
    k ∈ allCellKeys world z := by
  obtain ⟨c, r, z2⟩ := k
  dsimp only at hb hz
  subst hz
  rw [inBounds_iff] at hb
  have hw : 0 < world.w.toNat := by omega
  have hc : c.toNat < world.w.toNat := by omega
  have hr : r.toNat < world.h.toNat := by omega
  refine List.mem_map.mpr ⟨world.w.toNat * r.toNat + c.toNat, ?_, ?_⟩
  · rw [List.mem_range]
    calc world.w.toNat * r.toNat + c.toNat
        < world.w.toNat * r.toNat + world.w.toNat := by omega
      _ = world.w.toNat * (r.toNat + 1) := by ring
      _ ≤ world.w.toNat * world.h.toNat := Nat.mul_le_mul_left _ (by omega)
      _ = world.h.toNat * world.w.toNat := Nat.mul_comm _ _
  · have hmod : (world.w.toNat * r.toNat + c.toNat) % world.w.toNat = c.toNat := by
      rw [Nat.mul_add_mod]
      exact Nat.mod_eq_of_lt hc
    have hdiv : (world.w.toNat * r.toNat + c.toNat) / world.w.toNat = r.toNat := by
      rw [Nat.mul_add_div hw]
      rw [Nat.div_eq_of_lt hc]
      omega
    rw [hmod, hdiv]
    simp only [Prod.mk.injEq]
    refine ⟨?_, ?_, trivial⟩ <;> omega

theorem length_allCellKeys (world : World) (z : Int) :
    (allCellKeys world z).length = world.h.toNat * world.w.toNat := by
  simp [allCellKeys]

/-- Distinct in-bounds level-`z` keys number at most `h*w`. -/
theorem visited_length_le (world : World) (z : Int) (v : List Key) (hnd : v.Nodup)
    (hb : ∀ k ∈ v, inBounds k.1 k.2.1 world = true) (hz : ∀ k ∈ v, k.2.2 = z) :
    v.length ≤ world.h.toNat * world.w.toNat := by
  have hsub : v ⊆ allCellKeys world z := fun k hk =>
    mem_allCellKeys world z k (hb k hk) (hz k hk)
  have hl := (List.subperm_of_subset hnd hsub).length_le
  rw [length_allCellKeys] at hl
  exact hl

/-- One in-bounds odd-r step. -/
def StepIB (world : World) (a b : Int × Int) : Prop :=
  (∃ d : Dir, b = neighborOddR a.1 a.2 d) ∧ inBounds b.1 b.2 world = true

/-- Some direction moves straight down a row (SW on odd rows, SE on even). -/
theorem neighbor_down (c r : Int) : ∃ d : Dir, neighborOddR c r d = (c, r + 1) := by
  by_cases h : r % 2 = 1
  · exact ⟨Dir.SW, by simp [neighborOddR, h]⟩
  · exact ⟨Dir.SE, by simp [neighborOddR, h]⟩

/-- Some direction moves straight up a row (NW on odd rows, NE on even). -/
theorem neighbor_up (c r : Int) : ∃ d : Dir, neighborOddR c r d = (c, r - 1) := by
  by_cases h : r % 2 = 1
  · exact ⟨Dir.NW, by simp [neighborOddR, h]⟩
  · exact ⟨Dir.NE, by simp [neighborOddR, h]⟩

/-- Vertical in-bounds reachability along one column. -/
theorem reachVert (world : World) (c : Int) :
    ∀ (n : Nat) (r1 r2 : Int), (r2 - r1).natAbs = n →
    inBounds c r1 world = true → inBounds c r2 world = true →
    Relation.ReflTransGen (StepIB world) (c, r1) (c, r2) := by
  intro n
  induction n with
  | zero =>
    intro r1 r2 h0 h1 h2
    have he : r1 = r2 := by omega
    subst he
    exact Relation.ReflTransGen.refl
  | succ n ih =>
    intro r1 r2 hn h1 h2
    rw [inBounds_iff] at h1 h2
    rcases lt_or_gt_of_ne (show r1 ≠ r2 by omega) with hlt | hgt
    · have hb : inBounds c (r1 + 1) world = true := by
        rw [inBounds_iff]
        omega
      obtain ⟨d, hd⟩ := neighbor_down c r1
      exact Relation.ReflTransGen.head ⟨⟨d, hd.symm⟩, hb⟩
        (ih (r1 + 1) r2 (by omega) hb (by rw [inBounds_iff]; omega))
    · have hb : inBounds c (r1 - 1) world = true := by
        rw [inBounds_iff]
        omega
      obtain ⟨d, hd⟩ := neighbor_up c r1
      exact Relation.ReflTransGen.head ⟨⟨d, hd.symm⟩, hb⟩
        (ih (r1 - 1) r2 (by omega) hb (by rw [inBounds_iff]; omega))

/-- Horizontal in-bounds reachability along one row. -/
theorem reachHoriz (world : World) (r : Int) :
    ∀ (n : Nat) (c1 c2 : Int), (c2 - c1).natAbs = n →
    inBounds c1 r world = true → inBounds c2 r world = true →
    Relation.ReflTransGen (StepIB world) (c1, r) (c2, r) := by
  intro n
  induction n with
  | zero =>
    intro c1 c2 h0 h1 h2
    have he : c1 = c2 := by omega
    subst he
    exact Relation.ReflTransGen.refl
  | succ n ih =>
    intro c1 c2 hn h1 h2
    rw [inBounds_iff] at h1 h2
    rcases lt_or_gt_of_ne (show c1 ≠ c2 by omega) with hlt | hgt
    · have hb : inBounds (c1 + 1) r world = true := by
        rw [inBounds_iff]
        omega
      exact Relation.ReflTransGen.head ⟨⟨Dir.E, rfl⟩, hb⟩
        (ih (c1 + 1) c2 (by omega) hb (by rw [inBounds_iff]; omega))
    · have hb : inBounds (c1 - 1) r world = true := by
        rw [inBounds_iff]
        omega
      exact Relation.ReflTransGen.head ⟨⟨Dir.W, rfl⟩, hb⟩
        (ih (c1 - 1) c2 (by omega) hb (by rw [inBounds_iff]; omega))

/-- Any two in-bounds cells are connected by in-bounds odd-r steps. -/
theorem reachAll (world : World) (a b : Int × Int)
    (ha : inBounds a.1 a.2 world = true) (hb : inBounds b.1 b.2 world = true) :
    Relation.ReflTransGen (StepIB world) a b := by
  obtain ⟨a1, a2⟩ := a
  obtain ⟨b1, b2⟩ := b
  dsimp only at ha hb
  have hmid : inBounds a1 b2 world = true := by
    rw [inBounds_iff] at *
    omega
  exact Relation.ReflTransGen.trans
    (reachVert world a1 (b2 - a2).natAbs a2 b2 rfl ha hmid)
    (reachHoriz world b2 (b1 - a1).natAbs a1 b1 rfl hmid hb)

/-- A neighbor-closed visited set absorbs everything reachable from a
member. -/
theorem closed_reach (world : World) (z : Int) (V : List Key)
    (hclosed : ∀ k ∈ V, Expanded world z V k) :
    ∀ (a b : Int × Int), (a.1, a.2, z) ∈ V →
    Relation.ReflTransGen (StepIB world) a b → (b.1, b.2, z) ∈ V := by
  intro a b ha hr
  induction hr with
  | refl => exact ha
  | tail h1 hstep ih =>
    obtain ⟨⟨d, hd⟩, hbnd⟩ := hstep
    rename_i mid fin
    have hexp := hclosed _ ih d
    rw [hd]
    apply hexp
    rw [← hd]
    exact hbnd

/-- Appending a related element to a chain. -/
theorem chain_snoc (R : (Int × Int) → (Int × Int) → Prop) (b : Int × Int) :
    ∀ (l : List (Int × Int)) (s c : Int × Int), List.Chain R s l →
    l.getLast? = some c → R c b → List.Chain R s (l ++ [b]) := by
  intro l
  induction l with
  | nil =>
    intro s c hch hl
    simp at hl
  | cons x xs ih =>
    intro s c hch hl hr
    cases hch with
    | cons hsx hxs =>
      cases xs with
      | nil =>
        simp only [List.getLast?_singleton, Option.some.injEq] at hl
        subst hl
        exact List.Chain.cons hsx (List.Chain.cons hr List.Chain.nil)
      | cons y ys =>
        have hl2 : (y :: ys).getLast? = some c := by
          rw [← hl, List.getLast?_cons_cons]
        exact List.Chain.cons hsx (ih x c hxs hl2 hr)

/-- Appending one fresh element keeps a list duplicate-free. -/
theorem nodup_append_singleton (l : List Key) (a : Key) (h : l.Nodup) (ha : a ∉ l) :
    (l ++ [a]).Nodup := by
  rw [List.nodup_append]
  refine ⟨h, List.nodup_singleton a, ?_⟩
  intro x hx hxa
  rw [List.mem_singleton] at hxa
  subst hxa
  exact ha hx

/-- `indexOf` at a cons head that matches. -/
theorem idxOf_cons_of_beq {α} [BEq α] (a b : α) (l : List α) (h : (b == a) = true) :
    List.indexOf a (b :: l) = 0 := by
  simp [List.indexOf, List.findIdx_cons, h]

/-- `indexOf` at a cons head that does not match. -/
theorem idxOf_cons_of_ne {α} [BEq α] (a b : α) (l : List α) (h : (b == a) = false) :
    List.indexOf a (b :: l) = List.indexOf a l + 1 := by
  simp [List.indexOf, List.findIdx_cons, h]

/-- `indexOf` ignores an appended tail when the element occurs up front. -/
theorem idxOf_append_of_mem {α} [BEq α] [LawfulBEq α] (a : α) (l₁ l₂ : List α)
    (h : a ∈ l₁) : List.indexOf a (l₁ ++ l₂) = List.indexOf a l₁ := by
  induction l₁ with
  | nil => exact absurd h (List.not_mem_nil a)
  | cons b t ih =>
    by_cases hb : (b == a) = true
    · rw [List.cons_append, idxOf_cons_of_beq a b _ hb, idxOf_cons_of_beq a b _ hb]
    · have hb' : (b == a) = false := Bool.eq_false_iff.mpr hb
      have ht : a ∈ t := by
        rcases List.mem_cons.mp h with rfl | ht
        · exact absurd (beq_self_eq_true a) hb
        · exact ht
      rw [List.cons_append, idxOf_cons_of_ne a b _ hb', idxOf_cons_of_ne a b _ hb', ih ht]

/-- `indexOf` skips over a prefix that misses the element. -/
theorem idxOf_append_of_not_mem {α} [BEq α] [LawfulBEq α] (a : α) (l₁ l₂ : List α)
    (h : a ∉ l₁) : List.indexOf a (l₁ ++ l₂) = l₁.length + List.indexOf a l₂ := by
  induction l₁ with
  | nil => simp
  | cons b t ih =>
    have hb : (b == a) = false := by
      rcases hbe : b == a with _ | _
      · rfl
      · exact absurd (List.mem_cons_self b t) (by rw [eq_of_beq hbe] at h ⊢; exact h)
    have ht : a ∉ t := fun hm => h (List.mem_cons_of_mem b hm)
    rw [List.cons_append, idxOf_cons_of_ne a b _ hb, ih ht, List.length_cons]
    omega

/-- A present element's `indexOf` is below the list length. -/
theorem idxOf_lt_length {α} [BEq α] [LawfulBEq α] (a : α) (l : List α)
    (h : a ∈ l) : List.indexOf a l < l.length := by
  induction l with
  | nil => exact absurd h (List.not_mem_nil a)
  | cons b t ih =>
    by_cases hb : (b == a) = true
    · rw [idxOf_cons_of_beq a b _ hb]
      simp
    · have hb' : (b == a) = false := Bool.eq_false_iff.mpr hb
      have ht : a ∈ t := by
        rcases List.mem_cons.mp h with rfl | ht
        · exact absurd (beq_self_eq_true a) hb
        · exact ht
      rw [idxOf_cons_of_ne a b _ hb', List.length_cons]
      exact Nat.succ_lt_succ (ih ht)

/-- `indexOf` of the head itself is 0. -/
theorem idxOf_cons_self {α} [BEq α] [LawfulBEq α] (a : α) (l : List α) :
    List.indexOf a (a :: l) = 0 := idxOf_cons_of_beq a a l (beq_self_eq_true a)

/-- What one `bfsExpand` pass does: it appends matched fresh neighbors to the
queue, the visited list and the parent map in lockstep, preserving every
invariant piece, and afterwards every in-bounds neighbor in the processed
direction list is visited. -/
theorem bfsExpand_spec (world : World) (z : Int) (cur : Int × Int)
    (ck : Key) (hck : ck = (cur.1, cur.2, z)) :
    ∀ (ds : List Dir) (q : List (Int × Int)) (visited : List Key)
      (parent : List (Key × Key)),
    ck ∈ visited →
    visited.Nodup →
    (∀ k ∈ visited, k.2.2 = z) →
    (∀ k ∈ visited, inBounds k.1 k.2.1 world = true) →
    (∀ e ∈ parent, e.1 ∈ visited) →
    (∀ c ∈ q, (c.1, c.2, z) ∈ visited) →
    (∀ e ∈ parent, e.2 ∈ visited ∧
      (∃ d : Dir, (e.1.1, e.1.2.1) = neighborOddR e.2.1 e.2.2.1 d) ∧
      List.indexOf e.2 visited < List.indexOf e.1 visited) →
    ∃ (qsuf : List (Int × Int)) (vsuf : List Key) (psuf : List (Key × Key)),
      bfsExpand world z cur ck ds q visited parent
        = (q ++ qsuf, visited ++ vsuf, parent ++ psuf) ∧
      qsuf.length = vsuf.length ∧
      psuf.map (fun e => e.1) = vsuf ∧
      (visited ++ vsuf).Nodup ∧
      (∀ k ∈ visited ++ vsuf, k.2.2 = z) ∧
      (∀ k ∈ visited ++ vsuf, inBounds k.1 k.2.1 world = true) ∧
      (∀ c ∈ q ++ qsuf, (c.1, c.2, z) ∈ visited ++ vsuf) ∧
      (∀ e ∈ parent ++ psuf, e.2 ∈ visited ++ vsuf ∧
        (∃ d : Dir, (e.1.1, e.1.2.1) = neighborOddR e.2.1 e.2.2.1 d) ∧
        List.indexOf e.2 (visited ++ vsuf) < List.indexOf e.1 (visited ++ vsuf)) ∧
      (∀ k ∈ vsuf, ∃ c ∈ qsuf, (c.1, c.2, z) = k) ∧
      (∀ d ∈ ds,
        inBounds (neighborOddR cur.1 cur.2 d).1 (neighborOddR cur.1 cur.2 d).2 world = true →
        ((neighborOddR cur.1 cur.2 d).1, (neighborOddR cur.1 cur.2 d).2, z)
          ∈ visited ++ vsuf) := by
  intro ds
  induction ds with
  | nil =>
    intro q visited parent hcm hnd hvz hvb hp1 hqm hpe
    refine ⟨[], [], [], by simp [bfsExpand], rfl, rfl, by simpa using hnd, ?_, ?_, ?_, ?_, ?_, ?_⟩
    · simpa using hvz
    · simpa using hvb
    · simpa using hqm
    · simpa using hpe
    · intro k hk
      simp at hk
    · intro d hd
      simp at hd
  | cons d ds ih =>
    intro q visited parent hcm hnd hvz hvb hp1 hqm hpe
    by_cases hb : inBounds (neighborOddR cur.1 cur.2 d).1 (neighborOddR cur.1 cur.2 d).2 world = true
    · by_cases hv : ((neighborOddR cur.1 cur.2 d).1, (neighborOddR cur.1 cur.2 d).2, z) ∈ visited
      · -- neighbor already visited: recurse on the same state
        obtain ⟨qsuf, vsuf, psuf, heq, hql, hpm, hnd2, hvz2, hvb2, hqm2, hpe2, hnewq, hall⟩ :=
          ih q visited parent hcm hnd hvz hvb hp1 hqm hpe
        refine ⟨qsuf, vsuf, psuf, ?_, hql, hpm, hnd2, hvz2, hvb2, hqm2, hpe2, hnewq, ?_⟩
        · rw [← heq]
          simp only [bfsExpand, hb, if_true]
          rw [if_pos]
          exact hv
        · intro d2 hd2 hb2
          rcases List.mem_cons.mp hd2 with rfl | hd2
          · exact List.mem_append_left _ hv
          · exact hall d2 hd2 hb2
      · -- fresh neighbor: extend all three collections and recurse
        set nk : Key := ((neighborOddR cur.1 cur.2 d).1, (neighborOddR cur.1 cur.2 d).2, z)
          with hnk
        have hcm2 : ck ∈ visited ++ [nk] := List.mem_append_left _ hcm
        have hnd2 : (visited ++ [nk]).Nodup := nodup_append_singleton _ _ hnd hv
        have hvz2 : ∀ k ∈ visited ++ [nk], k.2.2 = z := by
          intro k hk
          rcases List.mem_append.mp hk with hk | hk
          · exact hvz k hk
          · rcases List.mem_singleton.mp hk with rfl
            rfl
        have hvb2 : ∀ k ∈ visited ++ [nk], inBounds k.1 k.2.1 world = true := by
          intro k hk
          rcases List.mem_append.mp hk with hk | hk
          · exact hvb k hk
          · rcases List.mem_singleton.mp hk with rfl
            exact hb
        have hp12 : ∀ e ∈ parent ++ [(nk, ck)], e.1 ∈ visited ++ [nk] := by
          intro e he
          rcases List.mem_append.mp he with he | he
          · exact List.mem_append_left _ (hp1 e he)
          · rcases List.mem_singleton.mp he with rfl
            exact List.mem_append_right _ (List.mem_singleton_self _)
        have hqm2 : ∀ c ∈ q ++ [neighborOddR cur.1 cur.2 d], (c.1, c.2, z) ∈ visited ++ [nk] := by
          intro c hc
          rcases List.mem_append.mp hc with hc | hc
          · exact List.mem_append_left _ (hqm c hc)
          · rcases List.mem_singleton.mp hc with rfl
            exact List.mem_append_right _ (List.mem_singleton_self _)
        have hpe2 : ∀ e ∈ parent ++ [(nk, ck)], e.2 ∈ visited ++ [nk] ∧
            (∃ d2 : Dir, (e.1.1, e.1.2.1) = neighborOddR e.2.1 e.2.2.1 d2) ∧
            List.indexOf e.2 (visited ++ [nk]) < List.indexOf e.1 (visited ++ [nk]) := by
          intro e he
          rcases List.mem_append.mp he with he | he
          · obtain ⟨h1, h2, h3⟩ := hpe e he
            refine ⟨List.mem_append_left _ h1, h2, ?_⟩
            rw [idxOf_append_of_mem _ _ _ h1, idxOf_append_of_mem _ _ _ (hp1 e he)]
            exact h3
          · rcases List.mem_singleton.mp he with rfl
            refine ⟨List.mem_append_left _ hcm, ?_, ?_⟩
            · refine ⟨d, ?_⟩
              rw [hck]
            · rw [idxOf_append_of_mem _ _ _ hcm, idxOf_append_of_not_mem _ _ _ hv,
                idxOf_cons_self]
              have := idxOf_lt_length ck visited hcm
              omega
        obtain ⟨qsuf, vsuf, psuf, heq, hql, hpm, hnd3, hvz3, hvb3, hqm3, hpe3, hnewq, hall⟩ :=
          ih (q ++ [neighborOddR cur.1 cur.2 d]) (visited ++ [nk]) (parent ++ [(nk, ck)])
            hcm2 hnd2 hvz2 hvb2 hp12 hqm2 hpe2
        have hstep : bfsExpand world z cur ck (d :: ds) q visited parent
            = bfsExpand world z cur ck ds (q ++ [neighborOddR cur.1 cur.2 d])
                (visited ++ [nk]) (parent ++ [(nk, ck)]) := by
          simp only [bfsExpand, keyOf, hb, if_true]
          rw [← hnk, if_neg hv]
        refine ⟨[neighborOddR cur.1 cur.2 d] ++ qsuf, [nk] ++ vsuf, [(nk, ck)] ++ psuf,
          ?_, ?_, ?_, ?_, ?_, ?_, ?_, ?_, ?_, ?_⟩
        · rw [hstep, heq]
          simp only [List.append_assoc]
        · simp only [List.length_append, List.length_singleton]
          omega
        · simp only [List.map_append, List.map_cons, List.map_nil, hpm]
        · rw [← List.append_assoc]
          exact hnd3
        · intro k hk
          rw [← List.append_assoc] at hk
          exact hvz3 k hk
        · intro k hk
          rw [← List.append_assoc] at hk
          exact hvb3 k hk
        · intro c hc
          rw [← List.append_assoc] at hc
          rw [← List.append_assoc]
          exact hqm3 c hc
        · intro e he
          rw [← List.append_assoc] at he
          rw [← List.append_assoc]
          exact hpe3 e he
        · intro k hk
          rcases List.mem_append.mp hk with hk | hk
          · rcases List.mem_singleton.mp hk with rfl
            exact ⟨neighborOddR cur.1 cur.2 d,
              List.mem_append_left _ (List.mem_singleton_self _), hnk.symm⟩
          · obtain ⟨c, hc, hck2⟩ := hnewq k hk
            exact ⟨c, List.mem_append_right _ hc, hck2⟩
        · intro d2 hd2 hb2
          rw [← List.append_assoc]
          rcases List.mem_cons.mp hd2 with rfl | hd2
          · exact List.mem_append_left _ (List.mem_append_right _ (List.mem_singleton_self _))
          · exact hall d2 hd2 hb2
    · -- out-of-bounds neighbor: recurse on the same state
      obtain ⟨qsuf, vsuf, psuf, heq, hql, hpm, hnd2, hvz2, hvb2, hqm2, hpe2, hnewq, hall⟩ :=
        ih q visited parent hcm hnd hvz hvb hp1 hqm hpe
      refine ⟨qsuf, vsuf, psuf, ?_, hql, hpm, hnd2, hvz2, hvb2, hqm2, hpe2, hnewq, ?_⟩
      · rw [← heq]
        simp only [bfsExpand]
        rw [if_neg]
        exact hb
      · intro d2 hd2 hb2
        rcases List.mem_cons.mp hd2 with rfl | hd2
        · exact absurd hb2 hb
        · exact hall d2 hd2 hb2

/-- Every direction occurs in the fixed E, W, NE, NW, SE, SW expansion list. -/
theorem mem_dirOrder (d : Dir) : d ∈ dirOrder := by
  cases d <;> simp [dirOrder]

/-- The BFS loop, run with enough fuel, exits with the invariant intact and
either the goal key visited or every visited key fully expanded. -/
theorem bfsLoop_spec (world : World) (z : Int) (startK goalK : Key) :
    ∀ (fuel : Nat) (q : List (Int × Int)) (visited : List Key)
      (parent : List (Key × Key)),
    BfsInv world z startK q visited parent →
    q.length + (world.h.toNat * world.w.toNat - visited.length) < fuel →
    ∃ (v2 : List Key) (p2 : List (Key × Key)) (q2 : List (Int × Int)),
      bfsLoop world z goalK fuel q visited parent = (v2, p2) ∧
      BfsInv world z startK q2 v2 p2 ∧
      (goalK ∈ v2 ∨ ∀ k ∈ v2, Expanded world z v2 k) := by
  intro fuel
  induction fuel with
  | zero =>
    intro q visited parent hinv hm
    exact absurd hm (Nat.not_lt_zero _)
  | succ fuel ih =>
    intro q visited parent hinv hm
    cases q with
    | nil =>
      refine ⟨visited, parent, [], by simp [bfsLoop], hinv, Or.inr ?_⟩
      intro k hk
      rcases hinv.closure k hk with ⟨c, hc, _⟩ | hexp
      · simp at hc
      · exact hexp
    | cons cur rest =>
      by_cases hgoal : keyOf cur.1 cur.2 z = goalK
      · refine ⟨visited, parent, cur :: rest, ?_, hinv, Or.inl ?_⟩
        · simp only [bfsLoop]
          rw [if_pos hgoal]
        · rw [← hgoal]
          exact hinv.qmem cur (List.mem_cons_self _ _)
      · obtain ⟨restv, hvshape, hpmap⟩ := hinv.shape
        have hp1 : ∀ e ∈ parent, e.1 ∈ visited := by
          intro e he
          rw [hvshape]
          exact List.mem_cons_of_mem _ (hpmap ▸ List.mem_map_of_mem (fun x => x.1) he)
        have hcm : keyOf cur.1 cur.2 z ∈ visited :=
          hinv.qmem cur (List.mem_cons_self _ _)
        obtain ⟨qsuf, vsuf, psuf, heq, hql, hpm, hnd2, hvz2, hvb2, hqm2, hpe2, hnewq, hall⟩ :=
          bfsExpand_spec world z cur (keyOf cur.1 cur.2 z) rfl dirOrder rest visited parent
            hcm hinv.nodup hinv.vz hinv.vbounds hp1
            (fun c hc => hinv.qmem c (List.mem_cons_of_mem _ hc)) hinv.pedge
        have hinv2 : BfsInv world z startK (rest ++ qsuf) (visited ++ vsuf)
            (parent ++ psuf) := by
          refine ⟨hnd2, hvz2, hvb2, ⟨restv ++ vsuf, ?_, ?_⟩, hqm2, hpe2, ?_⟩
          · rw [hvshape, List.cons_append]
          · rw [List.map_append, hpmap, hpm]
          · intro k hk
            rcases List.mem_append.mp hk with hk | hk
            · rcases hinv.closure k hk with ⟨c, hc, hck2⟩ | hexp
              · rcases List.mem_cons.mp hc with rfl | hc
                · right
                  subst hck2
                  intro d hd
                  exact hall d (mem_dirOrder d) hd
                · exact Or.inl ⟨c, List.mem_append_left _ hc, hck2⟩
              · exact Or.inr (Expanded.mono world z visited (visited ++ vsuf) k
                  (fun x hx => List.mem_append_left _ hx) hexp)
            · obtain ⟨c, hc, hck2⟩ := hnewq k hk
              exact Or.inl ⟨c, List.mem_append_right _ hc, hck2⟩
        have hlen : (visited ++ vsuf).length ≤ world.h.toNat * world.w.toNat :=
          visited_length_le world z (visited ++ vsuf) hnd2 hvb2 hvz2
        have hm2 : (rest ++ qsuf).length +
            (world.h.toNat * world.w.toNat - (visited ++ vsuf).length) < fuel := by
          simp only [List.length_append, List.length_cons] at hm hlen ⊢
          omega
        obtain ⟨v2, p2, q2, heq2, hinv3, hexit⟩ :=
          ih (rest ++ qsuf) (visited ++ vsuf) (parent ++ psuf) hinv2 hm2
        refine ⟨v2, p2, q2, ?_, hinv3, hexit⟩
        have hunfold : bfsLoop world z goalK (fuel + 1) (cur :: rest) visited parent
            = bfsLoop world z goalK fuel
                (bfsExpand world z cur (keyOf cur.1 cur.2 z) dirOrder rest visited parent).1
                (bfsExpand world z cur (keyOf cur.1 cur.2 z) dirOrder rest visited
                  parent).2.1
                (bfsExpand world z cur (keyOf cur.1 cur.2 z) dirOrder rest visited
                  parent).2.2 := by
          simp only [bfsLoop]
          rw [if_neg hgoal]
        rw [hunfold, heq]
        exact heq2

/-- Path reconstruction walks the parent chain back to the start key within
its fuel, and the prepend-accumulator yields the start-to-goal cell list: the
outcome prefixes the accumulator, ends at the argument key's cell, chains
odd-r steps from the start cell, and only lists cells of non-start visited
keys. -/
theorem reconstruct_spec (startK : Key) (v : List Key) (parent : List (Key × Key))
    (hshape : ∃ rest, v = startK :: rest ∧ parent.map (fun e => e.1) = rest)
    (hpe : ∀ e ∈ parent, e.2 ∈ v ∧
      (∃ d : Dir, (e.1.1, e.1.2.1) = neighborOddR e.2.1 e.2.2.1 d) ∧
      List.indexOf e.2 v < List.indexOf e.1 v) :
    ∀ (fuel : Nat) (k : Key) (acc : List (Int × Int)),
    k ∈ v → List.indexOf k v < fuel →
    ∃ pre, reconstruct parent startK fuel k acc = pre ++ acc ∧
      (k = startK → pre = []) ∧
      (k ≠ startK →
        pre.getLast? = some (k.1, k.2.1) ∧
        List.Chain (fun a b => ∃ d : Dir, b = neighborOddR a.1 a.2 d)
          (startK.1, startK.2.1) pre ∧
        (∀ c ∈ pre, ∃ kk ∈ v, kk ≠ startK ∧ c = (kk.1, kk.2.1))) := by
  intro fuel
  induction fuel with
  | zero =>
    intro k acc hk hidx
    exact absurd hidx (Nat.not_lt_zero _)
  | succ fuel ih =>
    intro k acc hk hidx
    by_cases hks : k = startK
    · refine ⟨[], ?_, fun _ => rfl, fun hne => absurd hks hne⟩
      simp [reconstruct, hks]
    · obtain ⟨rest, hv, hpm⟩ := hshape
      have hkrest : k ∈ rest := by
        rw [hv] at hk
        rcases List.mem_cons.mp hk with h | h
        · exact absurd h hks
        · exact h
      have hfind : (pmapFind parent k).isSome :=
        pmapFind_isSome_of_mem_fst parent k (by rw [hpm]; exact hkrest)
      obtain ⟨pk, hpk⟩ := Option.isSome_iff_exists.mp hfind
      have hmem := pmapFind_mem parent k pk hpk
      obtain ⟨hpkv, ⟨d0, hd0⟩, hlt⟩ := hpe (k, pk) hmem
      dsimp only at hpkv hd0 hlt
      have hstep : reconstruct parent startK (fuel + 1) k acc
          = reconstruct parent startK fuel pk ((k.1, k.2.1) :: acc) := by
        simp only [reconstruct]
        rw [if_neg hks, hpk]
      obtain ⟨pre, hpre, hs, hns⟩ := ih pk ((k.1, k.2.1) :: acc) hpkv (by omega)
      by_cases hpks : pk = startK
      · have hpre0 : pre = [] := hs hpks
        refine ⟨[(k.1, k.2.1)], ?_, fun h => absurd h hks, fun _ => ⟨?_, ?_, ?_⟩⟩
        · rw [hstep, hpre, hpre0]
          rfl
        · simp
        · rw [hpks] at hd0
          exact List.Chain.cons ⟨d0, hd0⟩ List.Chain.nil
        · intro c hc
          rcases List.mem_singleton.mp hc with rfl
          exact ⟨k, hk, hks, rfl⟩
      · obtain ⟨hlast, hchain, hcells⟩ := hns hpks
        refine ⟨pre ++ [(k.1, k.2.1)], ?_, fun h => absurd h hks, fun _ => ⟨?_, ?_, ?_⟩⟩
        · rw [hstep, hpre, List.append_assoc]
          rfl
        · rw [List.getLast?_concat]
        · exact chain_snoc _ (k.1, k.2.1) pre (startK.1, startK.2.1) (pk.1, pk.2.1)
            hchain hlast ⟨d0, hd0⟩
        · intro c hc
          rcases List.mem_append.mp hc with hc | hc
          · exact hcells c hc
          · rcases List.mem_singleton.mp hc with rfl
            exact ⟨k, hk, hks, rfl⟩

/-- Claim C6: for every world and every pair of distinct in-bounds tiles
`start` and `goal`, `bfsPath` — which rejects neighbors only for being out of
bounds, never for membership in `blockedSet`, expanding in the fixed order
E, W, NE, NW, SE, SW and visiting each tile at most once — returns a path
that excludes `start`, ends with `goal`, and whose consecutive elements
(starting from a neighbor of `start`) are each one odd-r neighbor step
apart. -/
theorem bfsPath_complete_and_valid (world : World) (blockedSet : List Key)
    (z : Int) (start goal : Int × Int)
    (hsb : inBounds start.1 start.2 world = true)
    (hgb : inBounds goal.1 goal.2 world = true)
    (hne : start ≠ goal) :
    ∃ p, bfsPath world start goal blockedSet z = some p ∧
      p ≠ [] ∧ p.getLast? = some goal ∧ start ∉ p ∧
      List.Chain (fun a b => ∃ d : Dir, b = neighborOddR a.1 a.2 d) start p := by
  have hinv0 : BfsInv world z (keyOf start.1 start.2 z) [start]
      [keyOf start.1 start.2 z] [] := by
    refine ⟨List.nodup_singleton _, ?_, ?_, ⟨[], rfl, rfl⟩, ?_, ?_, ?_⟩
    · intro k hk
      rcases List.mem_singleton.mp hk with rfl
      rfl
    · intro k hk
      rcases List.mem_singleton.mp hk with rfl
      exact hsb
    · intro c hc
      rcases List.mem_singleton.mp hc with rfl
      exact List.mem_singleton_self _
    · intro e he
      simp at he
    · intro k hk
      rcases List.mem_singleton.mp hk with rfl
      exact Or.inl ⟨start, List.mem_singleton_self _, rfl⟩
  have hw1 : 1 ≤ world.w.toNat := by
    rw [inBounds_iff] at hsb
    omega
  have hh1 : 1 ≤ world.h.toNat := by
    rw [inBounds_iff] at hsb
    omega
  have hcomm : world.w.toNat * world.h.toNat = world.h.toNat * world.w.toNat :=
    Nat.mul_comm _ _
  have hmul : 1 ≤ world.h.toNat * world.w.toNat := by
    have := Nat.mul_le_mul hh1 hw1
    simpa using this
  have hm0 : ([start] : List (Int × Int)).length +
      (world.h.toNat * world.w.toNat - ([keyOf start.1 start.2 z] : List Key).length)
      < world.w.toNat * world.h.toNat + 2 := by
    simp only [List.length_singleton]
    omega
  obtain ⟨v2, p2, q2, hrun, hinv, hexit⟩ :=
    bfsLoop_spec world z (keyOf start.1 start.2 z) (keyOf goal.1 goal.2 z)
      (world.w.toNat * world.h.toNat + 2) [start] [keyOf start.1 start.2 z] []
      hinv0 hm0
  have hkne : keyOf goal.1 goal.2 z ≠ keyOf start.1 start.2 z := by
    intro h
    apply hne
    have h1 : goal.1 = start.1 := congrArg (fun k : Key => k.1) h
    have h2 : goal.2 = start.2 := congrArg (fun k : Key => k.2.1) h
    calc start = (start.1, start.2) := rfl
      _ = (goal.1, goal.2) := by rw [h1, h2]
      _ = goal := rfl
  obtain ⟨rest2, hv2, hpm2⟩ := hinv.shape
  have hstartmem : keyOf start.1 start.2 z ∈ v2 := by
    rw [hv2]
    exact List.mem_cons_self _ _
  have hgoalmem : keyOf goal.1 goal.2 z ∈ v2 := by
    rcases hexit with hg | hclosed
    · exact hg
    · exact closed_reach world z v2 hclosed start goal hstartmem
        (reachAll world start goal hsb hgb)
  have hgoalrest : keyOf goal.1 goal.2 z ∈ rest2 := by
    rw [hv2] at hgoalmem
    rcases List.mem_cons.mp hgoalmem with h | h
    · exact absurd h hkne
    · exact h
  have hfind : (pmapFind p2 (keyOf goal.1 goal.2 z)).isSome :=
    pmapFind_isSome_of_mem_fst p2 _ (by rw [hpm2]; exact hgoalrest)
  obtain ⟨pk0, hpk0⟩ := Option.isSome_iff_exists.mp hfind
  have hbp : bfsPath world start goal blockedSet z
      = some (reconstruct p2 (keyOf start.1 start.2 z) (v2.length + 1)
          (keyOf goal.1 goal.2 z) []) := by
    simp only [bfsPath]
    rw [hrun]
    dsimp only
    rw [hpk0]
    simp
  obtain ⟨pre, hpre, hsc, hgc⟩ :=
    reconstruct_spec (keyOf start.1 start.2 z) v2 p2 ⟨rest2, hv2, hpm2⟩ hinv.pedge
      (v2.length + 1) (keyOf goal.1 goal.2 z) [] hgoalmem
      (by have := idxOf_lt_length (keyOf goal.1 goal.2 z) v2 hgoalmem; omega)
  rw [List.append_nil] at hpre
  obtain ⟨hlast, hchain, hcells⟩ := hgc hkne
  refine ⟨pre, ?_, ?_, ?_, ?_, ?_⟩
  · rw [hbp, hpre]
  · intro h0
    rw [h0] at hlast
    simp at hlast
  · exact hlast
  · intro hc
    obtain ⟨kk, hkkv, hkkne, hkk⟩ := hcells start hc
    apply hkkne
    have hz2 := hinv.vz kk hkkv
    obtain ⟨k1, k2, k3⟩ := kk
    dsimp only at hz2
    subst hz2
    rw [hkk]
    rfl
  · exact hchain

/-- Concrete instantiation of the BFS correctness theorem on a 3×3 world from
cell (0,0) to (2,2). -/
theorem bfsPath_complete_and_valid_witness :
    ∃ p, bfsPath { w := 3, h := 3 } ((0 : Int), (0 : Int)) ((2 : Int), (2 : Int)) [] 0
        = some p ∧
      p ≠ [] ∧ p.getLast? = some ((2 : Int), (2 : Int)) ∧ ((0 : Int), (0 : Int)) ∉ p ∧
      List.Chain (fun a b => ∃ d : Dir, b = neighborOddR a.1 a.2 d)
        ((0 : Int), (0 : Int)) p :=
  bfsPath_complete_and_valid { w := 3, h := 3 } [] 0 (0, 0) (2, 2)
    (by decide) (by decide) (by decide)
